import Mathlib

/-!
# Verification of the kubeAssume distributed publishing engine

Shallow embedding of the core of the kubeAssume controller:

* the rotation engine (`pkg/rotation`: `Merger.UpdateState`,
  `Merger.CleanupExpired`, `Merger.Merge`, `Merger.GetPublishableJWKS`,
  `RotationManager.ProcessJWKS`),
* the multi-cluster aggregator (`cmd/controller`: `aggregationPoller.aggregate`,
  `mergeJWKS`),
* the S3 storage adapter's conditional upload (`pkg/publisher/s3`:
  `Publisher.uploadObject`),
* the rotation state store (`pkg/rotation/store.go`: `ConfigMapStore.Save`),
* the publish reconciler's decision structure (`internal/controller`:
  `OIDCBridgeReconciler.Reconcile`),
* the discovery-document rewrite (`pkg/bridge/discovery.go`:
  `TransformDiscoveryDocument`, `buildPublicJWKSURI`).

Go maps are embedded as association lists (iteration order is irrelevant to
every property proved here, which are all about sets and counts);
`time.Time`/`time.Duration` are embedded as `Int` (instants and durations in
nanoseconds); fallible operations return `Except String`; external I/O
(Kubernetes API, S3 API) is abstracted as explicit oracle parameters whose
answers drive exactly the branches the Go code takes on the corresponding
responses.
-/

/-- Model of `bridge.JWK` (pkg/bridge/types.go): a single JSON Web Key. -/
structure JWK where
  kty : String
  kid : String
  alg : String
  keyUse : String
  n : String
  e : String
  deriving DecidableEq, Repr

/-- Model of `bridge.JWKS` (pkg/bridge/types.go): an ordered list of JWKs. -/
structure JWKS where
  keys : List JWK
  deriving DecidableEq, Repr

/-- The key IDs of a JWKS, in order. -/
def kidsOf (j : JWKS) : List String :=
  j.keys.map (·.kid)

/-- Model of `rotation.EventType` (pkg/rotation/types.go). -/
inductive EventType where
  | newKey
  | keyExpired
  | noChange
  deriving DecidableEq, Repr, BEq

/-- Model of `rotation.Event` (pkg/rotation/types.go). -/
structure Event where
  type : EventType
  keyID : String
  timestamp : Int
  message : String
  deriving DecidableEq, Repr

/-- Model of `rotation.KeyState` (pkg/rotation/types.go): the tracked state of one
observed key. `markedForRemoval = none` is Go's nil pointer (the Live state);
`some t` is the Marked state with the marking instant. -/
structure KeyState where
  keyID : String
  key : JWK
  firstSeen : Int
  lastSeen : Int
  markedForRemoval : Option Int
  deriving DecidableEq, Repr

/-- An entry of the rotation state's key map: Go `map[string]*KeyState`
is embedded as an association list of (key ID, key state) pairs. -/
abbrev Entry := String × KeyState

/-- Model of `rotation.State` (pkg/rotation/types.go). -/
structure State where
  keys : List Entry
  lastUpdated : Int
  version : Int
  deriving DecidableEq, Repr

/-- Model of `rotation.Merger` (pkg/rotation/merge.go): holds the overlap period. -/
structure Merger where
  overlapPeriod : Int
  deriving DecidableEq, Repr

/-- The keys of Go's possibly-nil `*bridge.JWKS`: nil contributes no keys. -/
def jwksKeys : Option JWKS → List JWK
  | none => []
  | some j => j.keys

/-- In-place update `existingState.LastSeen = now` performed by
`Merger.UpdateState` for a key of the source JWKS already present in the
state map: applied to the entry whose map key matches, identity elsewhere. -/
def updAt (kid : String) (now : Int) (e : Entry) : Entry :=
  if e.1 == kid then (e.1, { e.2 with lastSeen := now }) else e

/-- The fresh `KeyState` inserted by `Merger.UpdateState` for a newly observed
key: `FirstSeen = LastSeen = now`, not marked for removal. -/
def freshEntry (now : Int) (key : JWK) : Entry :=
  (key.kid, ⟨key.kid, key, now, now, none⟩)

/-- The `EventNewKey` event built by `Merger.UpdateState`. -/
def newKeyEvent (now : Int) (kid : String) : Event :=
  ⟨EventType.newKey, kid, now, "New key detected: " ++ kid⟩

/-- The `EventKeyExpired` event built by `Merger.CleanupExpired`. -/
def keyExpiredEvent (now : Int) (kid : String) : Event :=
  ⟨EventType.keyExpired, kid, now, "Key expired and removed: " ++ kid⟩

/-- One iteration of `Merger.UpdateState`'s loop over the source JWKS keys:
if the key ID is already in the state map its `LastSeen` is set to `now`,
otherwise a fresh entry is appended and a `NewKey` event is emitted. -/
def stepKey (now : Int) (acc : List Entry × List Event) (key : JWK) :
    List Entry × List Event :=
  match acc.1.find? (fun e => e.1 == key.kid) with
  | some _ => (acc.1.map (updAt key.kid now), acc.2)
  | none => (acc.1 ++ [freshEntry now key], acc.2 ++ [newKeyEvent now key.kid])

/-- The marking pass of `Merger.UpdateState`: a state entry whose key ID is
absent from the source JWKS and which is not yet marked gets
`MarkedForRemoval = now`; every other entry is untouched. -/
def markAbsent (curIDs : List String) (now : Int) (e : Entry) : Entry :=
  if !curIDs.contains e.1 && e.2.markedForRemoval.isNone then
    (e.1, { e.2 with markedForRemoval := some now })
  else e

/-- Model of `Merger.UpdateState` (pkg/rotation/merge.go lines 55-108): updates the
rotation state against the source JWKS and returns the `NewKey` events. -/
def Merger.UpdateState (_m : Merger) (current : Option JWKS) (s : State)
    (now : Int) : State × List Event :=
  let cur := jwksKeys current
  let curIDs := cur.map (·.kid)
  let processed := cur.foldl (stepKey now) (s.keys, [])
  ({ keys := processed.1.map (markAbsent curIDs now),
     lastUpdated := now,
     version := s.version + 1 }, processed.2)

/-- The expiry test of `Merger.CleanupExpired`:
marked for removal and `now - markedForRemoval >= overlapPeriod`. -/
def expiredAt (m : Merger) (now : Int) (e : Entry) : Bool :=
  match e.2.markedForRemoval with
  | some t => decide (m.overlapPeriod ≤ now - t)
  | none => false

/-- Model of `Merger.CleanupExpired` (pkg/rotation/merge.go lines 112-142): removes
every key past the overlap period, emitting one `KeyExpired` event per removed
key; the version is bumped only when something was removed. -/
def Merger.CleanupExpired (m : Merger) (s : State) (now : Int) :
    State × List Event :=
  let expired := s.keys.filter (expiredAt m now)
  if expired.isEmpty then (s, [])
  else
    ({ keys := s.keys.filter (fun e => !expiredAt m now e),
       lastUpdated := now,
       version := s.version + 1 },
     expired.map (fun e => keyExpiredEvent now e.1))

/-- Model of `Merger.shouldKeepKey` (pkg/rotation/merge.go lines 159-169): a key is
still publishable when it is not marked, or marked less than the overlap
period ago. -/
def Merger.shouldKeepKey (m : Merger) (ks : KeyState) (now : Int) : Bool :=
  match ks.markedForRemoval with
  | none => true
  | some t => decide (now - t < m.overlapPeriod)

/-- Model of `hasKey` (pkg/rotation/merge.go lines 172-179). -/
def hasKey (j : JWKS) (kid : String) : Bool :=
  j.keys.any (·.kid == kid)

/-- Model of `hasKey` guarded by Go's nil check `current != nil && hasKey(current, k)`. -/
def hasKeyOpt (current : Option JWKS) (kid : String) : Bool :=
  match current with
  | some c => hasKey c kid
  | none => false

/-- Model of `Merger.Merge` (pkg/rotation/merge.go lines 22-51): the source JWKS keys,
followed by the state entries that are not in the source and still pass
`shouldKeepKey`. -/
def Merger.Merge (m : Merger) (current : Option JWKS) (s : State) (now : Int) :
    JWKS :=
  if current.isNone && s.keys.isEmpty then ⟨[]⟩
  else
    ⟨jwksKeys current ++
      (s.keys.filter
        (fun e => !hasKeyOpt current e.1 && m.shouldKeepKey e.2 now)).map
        (·.2.key)⟩

/-- Model of `Merger.GetPublishableJWKS` (pkg/rotation/merge.go lines 146-156): the
snapshot keys of every entry of the state map, with no filtering. -/
def Merger.GetPublishableJWKS (_m : Merger) (s : State) : JWKS :=
  ⟨s.keys.map (·.2.key)⟩

/-- The result of one `RotationManager.ProcessJWKS` call. -/
structure ProcessResult where
  state : State
  events : List Event
  published : JWKS
  deriving DecidableEq, Repr

/-- Model of `RotationManager.ProcessJWKS` (pkg/rotation/rotation.go lines 49-85) with
the state store abstracted into explicit state passing: `UpdateState`, then
`CleanupExpired`, then `Merge`, with the events of both phases concatenated. -/
def processJWKS (m : Merger) (current : Option JWKS) (s : State) (now : Int) :
    ProcessResult :=
  let updated := m.UpdateState current s now
  let cleaned := m.CleanupExpired updated.1 now
  ⟨cleaned.1, updated.2 ++ cleaned.2, m.Merge current cleaned.1 now⟩

/-- One step of a reconciliation sequence: the instant, the events emitted and
the JWKS published at that step. -/
structure StepResult where
  now : Int
  events : List Event
  published : JWKS
  deriving DecidableEq, Repr

/-- A finite sequence of `ProcessJWKS` invocations (source JWKS and instant
per invocation), threading the rotation state through. -/
def runProcess (m : Merger) : State → List (JWKS × Int) → State × List StepResult
  | s, [] => (s, [])
  | s, (c, t) :: rest =>
    let r := processJWKS m (some c) s t
    let next := runProcess m r.state rest
    (next.1, ⟨t, r.events, r.published⟩ :: next.2)

/-- The entries of a state key list holding a given key ID. -/
def filterK (k : String) (l : List Entry) : List Entry :=
  l.filter (fun e => e.1 == k)

/-- The marked-for-removal stamps of the entries holding a given key ID. -/
def kMarks (k : String) (l : List Entry) : List (Option Int) :=
  (filterK k l).map (fun e => e.2.markedForRemoval)

/-- The number of `KeyExpired` events for a given key ID. -/
def countExpiredFor (k : String) (evs : List Event) : Nat :=
  evs.countP (fun ev => ev.keyID == k && ev.type == EventType.keyExpired)

/-- Model of `dedupByKid` captures the body of `mergeJWKS` (cmd/controller/main.go
lines 185-200): walk the keys of all clusters in order, appending a key only
when its key ID has not been seen yet. -/
def dedupByKid (seen : List String) : List JWK → List JWK
  | [] => []
  | key :: rest =>
    if seen.contains key.kid then dedupByKid seen rest
    else key :: dedupByKid (key.kid :: seen) rest

/-- Model of `mergeJWKS` (cmd/controller/main.go lines 185-200): merges the per-cluster
JWKS (Go `map[string]*bridge.JWKS`, embedded as an association list; nil
entries contribute nothing), deduplicating by key ID, first occurrence wins. -/
def mergeJWKS (clusterJWKS : List (String × Option JWKS)) : JWKS :=
  ⟨dedupByKid [] (clusterJWKS.flatMap (fun p => jwksKeys p.2))⟩

/-- Model of `aggregationPoller.aggregate` (cmd/controller/main.go lines 143-182),
with the two S3 listings passed in as data: prune every cluster whose
last-modified is older than the TTL (`now.Sub(t) > clusterTTL`; a cluster
with no recorded last-modified time is kept), return `none` (nothing written)
when no cluster survives, otherwise the merged JWKS that is published.
`freshCluster` is the keep-condition of the pruning loop: the cluster's
last-modified, when recorded, is within the TTL of the current instant
(`now.Sub(t) > clusterTTL` triggers deletion, so `now - t ≤ clusterTTL`
keeps). -/
def freshCluster (lastModified : List (String × Int)) (clusterTTL now : Int)
    (p : String × Option JWKS) : Bool :=
  match lastModified.find? (fun q => q.1 == p.1) with
  | some q => decide (now - q.2 ≤ clusterTTL)
  | none => true

/-- The pruning, emptiness check and merge of `aggregationPoller.aggregate`:
`none` means the tick published nothing. -/
def aggregate (clusterJWKS : List (String × Option JWKS))
    (lastModified : List (String × Int)) (clusterTTL : Int) (now : Int) :
    Option JWKS :=
  let pruned := clusterJWKS.filter (freshCluster lastModified clusterTTL now)
  if pruned.isEmpty then none else some (mergeJWKS pruned)

/-- Outcome of the S3 `HeadObject` call in `Publisher.uploadObject`
(pkg/publisher/s3/s3.go): the current ETag, a NotFound error, or any other
error. -/
inductive HeadResult where
  | found (etag : String)
  | notFound
  | failed (msg : String)
  deriving DecidableEq, Repr

/-- Outcome of the S3 `PutObject` call in `Publisher.uploadObject`: success,
an HTTP 412 precondition failure, or any other error. -/
inductive PutResult where
  | ok
  | preconditionFailed
  | failed (msg : String)
  deriving DecidableEq, Repr

deriving instance DecidableEq for Except

/-- What an `uploadObject` call did: the `IfMatch` argument of the `PutObject`
call when one was issued (`none` = no put was attempted; `some none` = put
with no precondition; `some (some etag)` = conditional put), and the returned
error value. -/
structure UploadOutcome where
  putArg : Option (Option String)
  result : Except String Unit
  deriving DecidableEq, Repr

/-- The `PutObject` phase of `Publisher.uploadObject` (pkg/publisher/s3/s3.go
lines 192-221): a 412 response is swallowed (`return nil` — the other replica
won); any other error is surfaced. -/
def runPut (put : Option String → PutResult) (ifMatch : Option String) :
    UploadOutcome :=
  match put ifMatch with
  | PutResult.ok => ⟨some ifMatch, Except.ok ()⟩
  | PutResult.preconditionFailed => ⟨some ifMatch, Except.ok ()⟩
  | PutResult.failed msg =>
    ⟨some ifMatch, Except.error ("failed to upload object: " ++ msg)⟩

/-- Model of `Publisher.uploadObject` (pkg/publisher/s3/s3.go lines 164-221): head the
object first; on success the put carries `IfMatch` = the returned ETag, on
NotFound the put carries no precondition, on any other head error the function
fails without attempting the put. -/
def uploadObject (head : HeadResult) (put : Option String → PutResult) :
    UploadOutcome :=
  match head with
  | HeadResult.found etag => runPut put (some etag)
  | HeadResult.notFound => runPut put none
  | HeadResult.failed msg => ⟨none, Except.error ("failed to head object: " ++ msg)⟩

/-- Outcome of the ConfigMap Get in `ConfigMapStore.Save`
(pkg/rotation/store.go). -/
inductive GetCMResult where
  | found
  | notFound
  | failed (msg : String)
  deriving DecidableEq, Repr

/-- Outcome of a ConfigMap Update call; `conflict` is a concurrent-write
(optimistic concurrency) conflict. -/
inductive UpdateResult where
  | ok
  | conflict
  | failed (msg : String)
  deriving DecidableEq, Repr

/-- Outcome of a ConfigMap Create call. -/
inductive CreateResult where
  | ok
  | failed (msg : String)
  deriving DecidableEq, Repr

/-- What a `ConfigMapStore.Save` call did: how many Update and Create calls it
issued against the API server, and the returned error value. -/
structure SaveOutcome where
  updateCalls : Nat
  createCalls : Nat
  result : Except String Unit
  deriving DecidableEq, Repr

/-- Model of `ConfigMapStore.Save` (pkg/rotation/store.go lines 80-99) together with
`createConfigMap` and `updateConfigMap` (lines 102-137): one Get, then a
single Create (ConfigMap absent) or a single Update (ConfigMap present); the
Update oracle is indexed by attempt number so that a retry, had the code made
one, could be given a different answer. -/
def ConfigMapStore.Save (get : GetCMResult) (update : Nat → UpdateResult)
    (create : CreateResult) : SaveOutcome :=
  match get with
  | GetCMResult.failed msg => ⟨0, 0, Except.error ("failed to get ConfigMap: " ++ msg)⟩
  | GetCMResult.notFound =>
    match create with
    | CreateResult.ok => ⟨0, 1, Except.ok ()⟩
    | CreateResult.failed msg =>
      ⟨0, 1, Except.error ("failed to create ConfigMap: " ++ msg)⟩
  | GetCMResult.found =>
    match update 0 with
    | UpdateResult.ok => ⟨1, 0, Except.ok ()⟩
    | UpdateResult.conflict =>
      ⟨1, 0, Except.error "failed to update ConfigMap: conflict"⟩
    | UpdateResult.failed msg =>
      ⟨1, 0, Except.error ("failed to update ConfigMap: " ++ msg)⟩

/-- The two payload fields of the OIDC metadata ConfigMap read by
`OIDCBridgeReconciler.Reconcile` (internal/controller/controller.go):
`discovery.json` and `jwks.json`, each possibly absent. -/
structure CacheRecordData where
  discovery : Option String
  jwks : Option String
  deriving DecidableEq, Repr

/-- The `(ctrl.Result, error)` pair returned by a Reconcile call:
`requeue` is `ctrl.Result.Requeue` and `err` the returned error. -/
structure ReconcileOutcome where
  requeue : Bool
  err : Option String
  deriving DecidableEq, Repr

/-- Model of `OIDCBridgeReconciler.Reconcile` (internal/controller/controller.go lines
110-177), with JSON decoding and the downstream phases abstracted as oracles:
absent ConfigMap is skipped; a missing or undecodable payload returns an
error with `Requeue = false`; rotation-processing or publish failure returns
`Requeue = true` with no error; otherwise success. -/
def Reconcile (cm : Option CacheRecordData) (decodeOk : String → Bool)
    (rotationOk : Bool) (publishOk : Bool) : ReconcileOutcome :=
  match cm with
  | none => ⟨false, none⟩
  | some data =>
    match data.discovery with
    | none => ⟨false, some "discovery.json not found in OIDC metadata ConfigMap"⟩
    | some d =>
      if !decodeOk d then
        ⟨false, some "failed to unmarshal discovery.json from ConfigMap"⟩
      else
        match data.jwks with
        | none => ⟨false, some "jwks.json not found in OIDC metadata ConfigMap"⟩
        | some j =>
          if !decodeOk j then
            ⟨false, some "failed to unmarshal jwks.json from ConfigMap"⟩
          else if !rotationOk then ⟨true, none⟩
          else if !publishOk then ⟨true, none⟩
          else ⟨false, none⟩

/-- controller-runtime's requeue rule for a Reconcile return value: the
request is requeued (with backoff) when the result asks for it or when a
non-nil error is returned; otherwise it is dropped until the watched object
changes again. -/
def frameworkRequeues (o : ReconcileOutcome) : Bool :=
  o.requeue || o.err.isSome

/-- Model of `bridge.DiscoveryDocument` (pkg/bridge/types.go). -/
structure DiscoveryDocument where
  issuer : String
  jwksURI : String
  authorizationEndpoint : String
  tokenEndpoint : String
  userInfoEndpoint : String
  responseTypesSupported : List String
  grantTypesSupported : List String
  subjectTypesSupported : List String
  idTokenSigningAlgValues : List String
  claimsSupported : List String
  scopesSupported : List String
  deriving DecidableEq, Repr

/-- The (scheme, host, path) view of a parsed URL, the part of Go `net/url.URL`
that `TransformDiscoveryDocument` and `buildPublicJWKSURI` consult. -/
structure GoURL where
  scheme : String
  host : String
  path : String
  deriving DecidableEq, Repr

/-- Finds the first `://` in a character list, returning the text before and
after it. -/
def splitSchemeAux : List Char → Option (List Char × List Char)
  | [] => none
  | c :: rest =>
    if c = ':' ∧ rest.take 2 = ['/', '/'] then some ([], rest.drop 2)
    else
      match splitSchemeAux rest with
      | some (a, b) => some (c :: a, b)
      | none => none

/-- Model of Go `net/url.Parse` on the URLs this program handles (a lowercase
scheme followed by `://`, a host up to the first `/`, and a plain path with no
query, fragment, userinfo or percent-escapes): text without `://` parses as a
bare path with empty scheme and host, which the rewrite rejects just as Go
does. -/
def parseURL (s : String) : GoURL :=
  match splitSchemeAux s.toList with
  | none => ⟨"", "", s⟩
  | some (sch, rest) =>
    ⟨String.mk sch, String.mk (rest.takeWhile (· ≠ '/')),
      String.mk (rest.dropWhile (· ≠ '/'))⟩

/-- Model of Go `net/url.URL.String` on the same URL subset. -/
def urlString (u : GoURL) : String :=
  if u.scheme == "" then u.path else u.scheme ++ "://" ++ u.host ++ u.path

/-- Model of `strings.TrimSuffix(path, "/")` as used by `buildPublicJWKSURI`:
drops one trailing slash if present. -/
def trimTrailingSlash (p : String) : String :=
  if p.data.getLast? = some '/' then String.mk p.data.dropLast else p

/-- Model of `buildPublicJWKSURI` (pkg/bridge/discovery.go lines 79-90): strip a
trailing slash from the issuer URL's path, append `/openid/v1/jwks`, and
re-serialise. -/
def buildPublicJWKSURI (issuerURL : String) : String :=
  let parsed := parseURL issuerURL
  urlString { parsed with path := trimTrailingSlash parsed.path ++ "/openid/v1/jwks" }

/-- Model of `TransformDiscoveryDocument` (pkg/bridge/discovery.go lines 12-46):
reject a public issuer URL whose scheme is not http/https or whose host is
empty; otherwise rebuild the document with the issuer replaced by the public
issuer URL verbatim and the jwks URI recomputed from it (the Go struct
literal leaves the fields it does not mention at their zero values). -/
def TransformDiscoveryDocument (doc : DiscoveryDocument)
    (publicIssuerURL : String) : Except String DiscoveryDocument :=
  let parsed := parseURL publicIssuerURL
  if parsed.scheme ≠ "https" ∧ parsed.scheme ≠ "http" then
    Except.error "public issuer URL must use http or https scheme"
  else if parsed.host = "" then
    Except.error "public issuer URL must have a host"
  else
    Except.ok
      { issuer := publicIssuerURL
        jwksURI := buildPublicJWKSURI publicIssuerURL
        authorizationEndpoint := doc.authorizationEndpoint
        tokenEndpoint := ""
        userInfoEndpoint := ""
        responseTypesSupported := doc.responseTypesSupported
        grantTypesSupported := []
        subjectTypesSupported := doc.subjectTypesSupported
        idTokenSigningAlgValues := doc.idTokenSigningAlgValues
        claimsSupported := doc.claimsSupported
        scopesSupported := [] }

/-! ## Generic list helpers -/

theorem filter_map_comm {α : Type} (f : α → α) (p : α → Bool) (l : List α)
    (h : ∀ e, p (f e) = p e) : (l.map f).filter p = (l.filter p).map f := by
  induction l with
  | nil => rfl
  | cons a l ih =>
    simp only [List.map_cons, List.filter_cons, h a]
    cases hp : p a <;> simp [ih]

theorem map_eq_self_of {α : Type} {f : α → α} {l : List α}
    (h : ∀ e ∈ l, f e = e) : l.map f = l := by
  induction l with
  | nil => rfl
  | cons a l ih =>
    simp only [List.map_cons, h a (List.mem_cons_self a l)]
    rw [ih fun e he => h e (List.mem_cons_of_mem a he)]

theorem contains_iff_mem {a : String} {l : List String} :
    l.contains a = true ↔ a ∈ l := by
  simp [List.contains, List.elem_iff]

/-! ## Pointwise facts about the entry transformers -/

theorem updAt_fst (kid : String) (now : Int) (e : Entry) :
    (updAt kid now e).1 = e.1 := by
  unfold updAt; split <;> rfl

theorem updAt_of_ne {kid : String} {e : Entry} (now : Int) (h : e.1 ≠ kid) :
    updAt kid now e = e := by
  unfold updAt
  simp [h]

theorem updAt_of_eq {kid : String} {e : Entry} (now : Int) (h : e.1 = kid) :
    updAt kid now e = (e.1, { e.2 with lastSeen := now }) := by
  unfold updAt
  simp [h]

theorem updAt_markedForRemoval (kid : String) (now : Int) (e : Entry) :
    (updAt kid now e).2.markedForRemoval = e.2.markedForRemoval := by
  unfold updAt; split <;> rfl

theorem updAt_key (kid : String) (now : Int) (e : Entry) :
    (updAt kid now e).2.key = e.2.key := by
  unfold updAt; split <;> rfl

theorem updAt_preserves_lastSeen_now {kid : String} {now : Int} {e : Entry}
    (h : e.2.lastSeen = now) : updAt kid now e = e := by
  unfold updAt
  split
  · cases e with
    | mk a b => cases b; simp_all
  · rfl

theorem markAbsent_fst (curIDs : List String) (now : Int) (e : Entry) :
    (markAbsent curIDs now e).1 = e.1 := by
  unfold markAbsent; split <;> rfl

theorem markAbsent_key (curIDs : List String) (now : Int) (e : Entry) :
    (markAbsent curIDs now e).2.key = e.2.key := by
  unfold markAbsent; split <;> rfl

theorem markAbsent_lastSeen (curIDs : List String) (now : Int) (e : Entry) :
    (markAbsent curIDs now e).2.lastSeen = e.2.lastSeen := by
  unfold markAbsent; split <;> rfl

theorem markAbsent_of_contains {curIDs : List String} {e : Entry} (now : Int)
    (h : curIDs.contains e.1 = true) : markAbsent curIDs now e = e := by
  unfold markAbsent
  rw [h]
  rfl

theorem markAbsent_of_isSome {curIDs : List String} {e : Entry} (now : Int)
    (h : e.2.markedForRemoval.isSome = true) : markAbsent curIDs now e = e := by
  unfold markAbsent
  cases hm : e.2.markedForRemoval with
  | none => rw [hm] at h; simp at h
  | some t =>
    rw [show (some t : Option Int).isNone = false from rfl, Bool.and_false]
    rfl

theorem markAbsent_markedForRemoval (curIDs : List String) (now : Int)
    (e : Entry) :
    (markAbsent curIDs now e).2.markedForRemoval =
      if curIDs.contains e.1 = false ∧ e.2.markedForRemoval = none then some now
      else e.2.markedForRemoval := by
  unfold markAbsent
  cases hb : curIDs.contains e.1 <;> cases hm : e.2.markedForRemoval <;>
    simp [hm]

/-- Shorthand for the `LastSeen = now` refresh applied to an entry. -/
def touchE (now : Int) (e : Entry) : Entry :=
  (e.1, { e.2 with lastSeen := now })

theorem touchE_idem (now : Int) (e : Entry) :
    touchE now (touchE now e) = touchE now e := rfl

/-! ## Characterisation of the `UpdateState` fold -/

theorem stepKey_of_ne {k : String} (now : Int) (key : JWK)
    (acc : List Entry × List Event) (hne : key.kid ≠ k) :
    filterK k (stepKey now acc key).1 = filterK k acc.1 ∧
    (stepKey now acc key).2.countP (fun ev => ev.keyID == k) =
      acc.2.countP (fun ev => ev.keyID == k) := by
  unfold stepKey
  cases hf : acc.1.find? (fun e => e.1 == key.kid) with
  | some e₀ =>
    refine ⟨?_, rfl⟩
    unfold filterK
    rw [filter_map_comm (updAt key.kid now) _ acc.1
        (fun e => by rw [updAt_fst])]
    exact map_eq_self_of fun e he => by
      have h1 : e.1 = k := by
        have := (List.mem_filter.mp he).2
        exact (beq_iff_eq.mp this)
      exact updAt_of_ne now (by rw [h1]; exact fun h => hne h.symm)
  | none =>
    constructor
    · unfold filterK
      rw [List.filter_append]
      have : List.filter (fun e => e.1 == k) [freshEntry now key] = [] := by
        simp [freshEntry, hne]
      rw [this, List.append_nil]
    · rw [List.countP_append]
      have : List.countP (fun ev => ev.keyID == k) [newKeyEvent now key.kid]
          = 0 := by
        simp [newKeyEvent, hne]
      rw [this, Nat.add_zero]

theorem stepKey_of_ne_keys {k : String} (now : Int) (key : JWK)
    (acc : List Entry × List Event) (hne : key.kid ≠ k) :
    filterK k (stepKey now acc key).1 = filterK k acc.1 :=
  (stepKey_of_ne now key acc hne).1

/-- For a key ID absent from the source JWKS, the per-key update loop leaves
its state entries untouched and emits no events about it. -/
theorem foldl_stepKey_not_mem (k : String) (now : Int) (cur : List JWK)
    (acc : List Entry × List Event) (hk : ∀ key ∈ cur, key.kid ≠ k) :
    filterK k (cur.foldl (stepKey now) acc).1 = filterK k acc.1 ∧
    (cur.foldl (stepKey now) acc).2.countP (fun ev => ev.keyID == k) =
      acc.2.countP (fun ev => ev.keyID == k) := by
  induction cur generalizing acc with
  | nil => exact ⟨rfl, rfl⟩
  | cons key rest ih =>
    have hne : key.kid ≠ k := hk key (List.mem_cons_self key rest)
    have hstep := stepKey_of_ne now key acc hne
    have hrest := ih (stepKey now acc key)
      (fun key' h' => hk key' (List.mem_cons_of_mem key h'))
    rw [List.foldl_cons]
    exact ⟨hrest.1.trans hstep.1, hrest.2.trans hstep.2⟩

/-- For a key ID that already has entries in the state map, the per-key update
loop refreshes their `LastSeen` (when the key is in the source JWKS) and never
appends a duplicate or emits an event about it. -/
theorem foldl_stepKey_mem (k : String) (now : Int) (cur : List JWK)
    (acc : List Entry × List Event) (hne : filterK k acc.1 ≠ []) :
    filterK k (cur.foldl (stepKey now) acc).1 =
      (if cur.any (fun key => key.kid == k) then
        (filterK k acc.1).map (touchE now)
      else filterK k acc.1) ∧
    (cur.foldl (stepKey now) acc).2.countP (fun ev => ev.keyID == k) =
      acc.2.countP (fun ev => ev.keyID == k) := by
  induction cur generalizing acc with
  | nil => exact ⟨rfl, rfl⟩
  | cons key rest ih =>
    rw [List.foldl_cons]
    by_cases hkid : key.kid = k
    · have hfind : (acc.1.find? (fun e => e.1 == key.kid)).isSome = true := by
        rw [List.find?_isSome]
        obtain ⟨e, he⟩ := List.exists_mem_of_ne_nil _ hne
        exact ⟨e, (List.mem_filter.mp he).1, by
          rw [hkid]; exact (List.mem_filter.mp he).2⟩
      obtain ⟨e₀, hf⟩ := Option.isSome_iff_exists.mp hfind
      have hstepkeys : filterK k (stepKey now acc key).1 =
          (filterK k acc.1).map (touchE now) := by
        unfold stepKey
        rw [hf]
        unfold filterK
        rw [filter_map_comm (updAt key.kid now) _ acc.1
            (fun e => by rw [updAt_fst])]
        refine List.map_congr_left fun e he => ?_
        have h1 : e.1 = k := beq_iff_eq.mp (List.mem_filter.mp he).2
        rw [updAt_of_eq now (by rw [h1, hkid])]
        rfl
      have hstepev : (stepKey now acc key).2 = acc.2 := by
        unfold stepKey
        rw [hf]
      have hne' : filterK k (stepKey now acc key).1 ≠ [] := by
        rw [hstepkeys]
        intro hcon
        exact hne (List.map_eq_nil_iff.mp hcon)
      obtain ⟨ih1, ih2⟩ := ih (stepKey now acc key) hne'
      constructor
      · rw [ih1, hstepkeys]
        have hany : (key :: rest).any (fun key => key.kid == k) = true := by
          simp [hkid]
        rw [hany]
        split
        · rw [List.map_map]
          exact List.map_congr_left fun e _ => touchE_idem now e
        · rfl
      · rw [ih2, hstepev]
    · have hstep := stepKey_of_ne now key acc hkid
      have hne' : filterK k (stepKey now acc key).1 ≠ [] := by
        rw [hstep.1]; exact hne
      obtain ⟨ih1, ih2⟩ := ih (stepKey now acc key) hne'
      constructor
      · rw [ih1, hstep.1]
        have : (key :: rest).any (fun key => key.kid == k) =
            rest.any (fun key => key.kid == k) := by
          simp [hkid]
        rw [this]
      · rw [ih2, hstep.2]

/-! ## Characterisation of `CleanupExpired` -/

theorem CleanupExpired_keys (m : Merger) (s : State) (now : Int) :
    (m.CleanupExpired s now).1.keys =
      s.keys.filter (fun e => !expiredAt m now e) := by
  simp only [Merger.CleanupExpired]
  split
  · next h =>
    have hnil : s.keys.filter (expiredAt m now) = [] := List.isEmpty_iff.mp h
    refine (List.filter_eq_self.mpr fun e he => ?_).symm
    have hf := List.filter_eq_nil_iff.mp hnil e he
    cases hb : expiredAt m now e with
    | false => rfl
    | true => exact absurd hb hf
  · rfl

theorem CleanupExpired_events (m : Merger) (s : State) (now : Int) :
    (m.CleanupExpired s now).2 =
      (s.keys.filter (expiredAt m now)).map (fun e => keyExpiredEvent now e.1) := by
  simp only [Merger.CleanupExpired]
  split
  · next h =>
    rw [List.isEmpty_iff.mp h]
    rfl
  · rfl

theorem CleanupExpired_of_no_expired (m : Merger) (s : State) (now : Int)
    (h : ∀ e ∈ s.keys, expiredAt m now e = false) :
    m.CleanupExpired s now = (s, []) := by
  simp only [Merger.CleanupExpired]
  rw [if_pos]
  rw [List.isEmpty_iff]
  exact List.filter_eq_nil_iff.mpr fun e he => by
    rw [h e he]; exact Bool.false_ne_true

theorem CleanupExpired_lastUpdated (m : Merger) (s : State) (now : Int)
    (h : s.lastUpdated = now) : (m.CleanupExpired s now).1.lastUpdated = now := by
  simp only [Merger.CleanupExpired]
  split
  · exact h
  · rfl

theorem CleanupExpired_keys_not_expired (m : Merger) (s : State) (now : Int) :
    ∀ e ∈ (m.CleanupExpired s now).1.keys, expiredAt m now e = false := by
  intro e he
  rw [CleanupExpired_keys] at he
  have hne := (List.mem_filter.mp he).2
  cases hb : expiredAt m now e with
  | false => rfl
  | true => rw [hb] at hne; exact absurd hne (by decide)

/-! ## Preservation lemmas for the `UpdateState` fold -/

theorem foldl_stepKey_preserve (Pred : Entry → Prop) (now : Int)
    (cur : List JWK) (acc : List Entry × List Event)
    (hstab : ∀ kid e, Pred e → Pred (updAt kid now e))
    (hfresh : ∀ key ∈ cur, Pred (freshEntry now key))
    (hinit : ∀ e ∈ acc.1, Pred e) :
    ∀ e ∈ (cur.foldl (stepKey now) acc).1, Pred e := by
  induction cur generalizing acc with
  | nil => exact hinit
  | cons key rest ih =>
    rw [List.foldl_cons]
    refine ih (stepKey now acc key)
      (fun key' h' => hfresh key' (List.mem_cons_of_mem key h')) ?_
    intro e he
    unfold stepKey at he
    cases hf : acc.1.find? (fun e => e.1 == key.kid) with
    | some e₀ =>
      rw [hf] at he
      obtain ⟨x, hx, rfl⟩ := List.mem_map.mp he
      exact hstab key.kid x (hinit x hx)
    | none =>
      rw [hf] at he
      rcases List.mem_append.mp he with hx | hx
      · exact hinit e hx
      · rw [List.mem_singleton.mp hx]
        exact hfresh key (List.mem_cons_self key rest)

theorem foldl_stepKey_exists (Pred : Entry → Prop) (now : Int)
    (cur : List JWK) (acc : List Entry × List Event)
    (hstab : ∀ kid e, Pred e → Pred (updAt kid now e))
    (hex : ∃ e ∈ acc.1, Pred e) :
    ∃ e ∈ (cur.foldl (stepKey now) acc).1, Pred e := by
  induction cur generalizing acc with
  | nil => exact hex
  | cons key rest ih =>
    rw [List.foldl_cons]
    refine ih (stepKey now acc key) ?_
    obtain ⟨e, he, hPe⟩ := hex
    unfold stepKey
    cases hf : acc.1.find? (fun e => e.1 == key.kid) with
    | some e₀ =>
      exact ⟨updAt key.kid now e, List.mem_map_of_mem _ he, hstab key.kid e hPe⟩
    | none =>
      exact ⟨e, List.mem_append_left _ he, hPe⟩

/-- After one `stepKey` at a source key, every state entry holding that key's
ID has `LastSeen = now`. -/
theorem stepKey_lastSeen_self (now : Int) (key : JWK)
    (acc : List Entry × List Event) :
    ∀ e ∈ (stepKey now acc key).1, e.1 = key.kid → e.2.lastSeen = now := by
  intro e he h1
  unfold stepKey at he
  cases hf : acc.1.find? (fun e => e.1 == key.kid) with
  | some e₀ =>
    rw [hf] at he
    obtain ⟨x, hx, rfl⟩ := List.mem_map.mp he
    rw [updAt_fst] at h1
    rw [updAt_of_eq now h1]
  | none =>
    rw [hf] at he
    rcases List.mem_append.mp he with hx | hx
    · exact absurd (beq_iff_eq.mpr h1) (List.find?_eq_none.mp hf e hx)
    · rw [List.mem_singleton.mp hx]
      rfl

/-- After the update loop has processed a source key with key ID `k`, every
state entry for `k` carries `LastSeen = now`. -/
theorem foldl_stepKey_lastSeen (k : String) (now : Int) (cur : List JWK)
    (acc : List Entry × List Event) (hk : ∃ key ∈ cur, key.kid = k) :
    ∀ e ∈ (cur.foldl (stepKey now) acc).1, e.1 = k → e.2.lastSeen = now := by
  obtain ⟨key, hkey, hkid⟩ := hk
  obtain ⟨l₁, l₂, rfl⟩ := List.append_of_mem hkey
  rw [List.foldl_append, List.foldl_cons]
  refine foldl_stepKey_preserve (fun e => e.1 = k → e.2.lastSeen = now) now l₂ _
    ?_ ?_ ?_
  · intro kid e hPe h1
    rw [updAt_fst] at h1
    by_cases hek : e.1 = kid
    · rw [updAt_of_eq now hek]
    · rw [updAt_of_ne now hek]
      exact hPe h1
  · intro key' _ h1
    rfl
  · intro e he h1
    exact stepKey_lastSeen_self now key _ e he (h1.trans hkid.symm)

/-- After the update loop has processed a source key with key ID `k`, some
state entry for `k` exists, and its marked-for-removal stamp satisfies any
property `Q` that holds for `none` (fresh entries) and for the stamps the
`k`-entries had before the loop (stamps are never modified by the loop). -/
theorem foldl_stepKey_exists_kid (k : String) (Q : Option Int → Prop)
    (now : Int) (cur : List JWK) (acc : List Entry × List Event)
    (hQnone : Q none) (hk : ∃ key ∈ cur, key.kid = k)
    (hinit : ∀ e ∈ acc.1, e.1 = k → Q e.2.markedForRemoval) :
    ∃ e ∈ (cur.foldl (stepKey now) acc).1, e.1 = k ∧ Q e.2.markedForRemoval := by
  obtain ⟨key, hkey, hkid⟩ := hk
  obtain ⟨l₁, l₂, rfl⟩ := List.append_of_mem hkey
  rw [List.foldl_append, List.foldl_cons]
  have hstab : ∀ kid e, (e.1 = k ∧ Q e.2.markedForRemoval) →
      ((updAt kid now e).1 = k ∧ Q (updAt kid now e).2.markedForRemoval) := by
    intro kid e ⟨h1, h2⟩
    rw [updAt_fst, updAt_markedForRemoval]
    exact ⟨h1, h2⟩
  refine foldl_stepKey_exists _ now l₂ _ hstab ?_
  have hacc₁ : ∀ e ∈ (l₁.foldl (stepKey now) acc).1, e.1 = k →
      Q e.2.markedForRemoval := by
    refine foldl_stepKey_preserve _ now l₁ acc ?_ ?_ hinit
    · intro kid e hPe h1
      rw [updAt_fst] at h1
      rw [updAt_markedForRemoval]
      exact hPe h1
    · intro key' _ h1
      exact hQnone
  set acc₁ := l₁.foldl (stepKey now) acc with hacc
  unfold stepKey
  cases hf : acc₁.1.find? (fun e => e.1 == key.kid) with
  | some e₀ =>
    have he₀ : e₀ ∈ acc₁.1 := List.mem_of_find?_eq_some hf
    have hk₀ : e₀.1 = k := by
      have := List.find?_some hf
      exact (beq_iff_eq.mp this).trans hkid
    refine ⟨updAt key.kid now e₀, List.mem_map_of_mem _ he₀, ?_⟩
    rw [updAt_fst, updAt_markedForRemoval]
    exact ⟨hk₀, hacc₁ e₀ he₀ hk₀⟩
  | none =>
    refine ⟨freshEntry now key, List.mem_append_right _ (List.mem_singleton_self _), ?_⟩
    exact ⟨hkid, hQnone⟩

/-- When every source key already has a state entry whose `LastSeen` is
already `now`, the update loop is the identity and emits nothing. -/
theorem foldl_stepKey_id (now : Int) (cur : List JWK) (S : List Entry)
    (hls : ∀ e ∈ S, (∃ key ∈ cur, key.kid = e.1) → e.2.lastSeen = now)
    (hex : ∀ key ∈ cur, ∃ e ∈ S, e.1 = key.kid) :
    cur.foldl (stepKey now) (S, []) = (S, []) := by
  induction cur with
  | nil => rfl
  | cons key rest ih =>
    rw [List.foldl_cons]
    have hstep : stepKey now (S, []) key = (S, []) := by
      have hfind : (S.find? (fun e => e.1 == key.kid)).isSome = true := by
        rw [List.find?_isSome]
        obtain ⟨e, he, h1⟩ := hex key (List.mem_cons_self key rest)
        exact ⟨e, he, beq_iff_eq.mpr h1⟩
      obtain ⟨e₀, hf⟩ := Option.isSome_iff_exists.mp hfind
      unfold stepKey
      rw [hf]
      refine Prod.ext ?_ rfl
      show S.map (updAt key.kid now) = S
      refine map_eq_self_of fun e he => ?_
      by_cases hek : e.1 = key.kid
      · exact updAt_preserves_lastSeen_now
          (hls e he ⟨key, List.mem_cons_self key rest, hek.symm⟩)
      · exact updAt_of_ne now hek
    rw [hstep]
    exact ih
      (fun e he hk => hls e he
        (hk.elim fun key' hk' => ⟨key', List.mem_cons_of_mem key hk'.1, hk'.2⟩))
      (fun key' h' => hex key' (List.mem_cons_of_mem key h'))

/-! ## `UpdateState`-level characterisations -/

theorem filterK_map {f : Entry → Entry} (hf : ∀ e, (f e).1 = e.1) (k : String)
    (l : List Entry) : filterK k (l.map f) = (filterK k l).map f :=
  filter_map_comm f _ l (fun e => by rw [hf])

theorem UpdateState_keys (m : Merger) (current : Option JWKS) (s : State)
    (now : Int) :
    (m.UpdateState current s now).1.keys =
      ((jwksKeys current).foldl (stepKey now) (s.keys, [])).1.map
        (markAbsent ((jwksKeys current).map (·.kid)) now) := rfl

theorem UpdateState_events (m : Merger) (current : Option JWKS) (s : State)
    (now : Int) :
    (m.UpdateState current s now).2 =
      ((jwksKeys current).foldl (stepKey now) (s.keys, [])).2 := rfl

theorem UpdateState_lastUpdated (m : Merger) (current : Option JWKS) (s : State)
    (now : Int) : (m.UpdateState current s now).1.lastUpdated = now := rfl

theorem UpdateState_version (m : Merger) (current : Option JWKS) (s : State)
    (now : Int) :
    (m.UpdateState current s now).1.version = s.version + 1 := rfl

/-- For a key ID absent from the source JWKS, `UpdateState` emits no event
about it and only (possibly) stamps its entries: an unmarked entry becomes
marked at `now`, a marked entry keeps its stamp. -/
theorem UpdateState_kMarks_not_mem (m : Merger) (current : Option JWKS)
    (s : State) (now : Int) (k : String)
    (hk : ∀ key ∈ jwksKeys current, key.kid ≠ k) :
    kMarks k (m.UpdateState current s now).1.keys =
      (kMarks k s.keys).map (fun o => some (o.getD now)) ∧
    (m.UpdateState current s now).2.countP (fun ev => ev.keyID == k) = 0 := by
  have hfold := foldl_stepKey_not_mem k now (jwksKeys current) (s.keys, []) hk
  have hcont : ((jwksKeys current).map (·.kid)).contains k = false := by
    cases hb : ((jwksKeys current).map (·.kid)).contains k with
    | false => rfl
    | true =>
      obtain ⟨key, hkey, hkid⟩ := List.mem_map.mp (contains_iff_mem.mp hb)
      exact absurd hkid (hk key hkey)
  constructor
  · rw [UpdateState_keys]
    unfold kMarks
    rw [filterK_map (markAbsent_fst _ now) k, hfold.1, List.map_map,
      List.map_map]
    refine List.map_congr_left fun e he => ?_
    have h1 : e.1 = k := beq_iff_eq.mp (List.mem_filter.mp he).2
    show (markAbsent _ now e).2.markedForRemoval = some (e.2.markedForRemoval.getD now)
    rw [markAbsent_markedForRemoval]
    cases hm : e.2.markedForRemoval with
    | none =>
      rw [if_pos ⟨by rw [h1]; exact hcont, rfl⟩]
      rfl
    | some t =>
      rw [if_neg (fun hcon => Option.noConfusion hcon.2)]
      rfl
  · rw [UpdateState_events, hfold.2]
    rfl

/-- For a source key whose ID already has entries in the state map,
`UpdateState` refreshes `LastSeen` on those entries, leaves their
marked-for-removal stamps untouched, and emits no event about that key. -/
theorem UpdateState_filterK_mem (m : Merger) (c : JWKS) (s : State) (now : Int)
    (k : String) (hc : ∃ key ∈ c.keys, key.kid = k)
    (hne : filterK k s.keys ≠ []) :
    filterK k (m.UpdateState (some c) s now).1.keys =
      (filterK k s.keys).map (touchE now) ∧
    (m.UpdateState (some c) s now).2.countP (fun ev => ev.keyID == k) = 0 := by
  have hany : (jwksKeys (some c)).any (fun key => key.kid == k) = true := by
    obtain ⟨key, hkey, hkid⟩ := hc
    exact List.any_eq_true.mpr ⟨key, hkey, beq_iff_eq.mpr hkid⟩
  have hfold := foldl_stepKey_mem k now (jwksKeys (some c)) (s.keys, []) hne
  have hcont : ((jwksKeys (some c)).map (·.kid)).contains k = true := by
    obtain ⟨key, hkey, hkid⟩ := hc
    exact contains_iff_mem.mpr (List.mem_map.mpr ⟨key, hkey, hkid⟩)
  constructor
  · rw [UpdateState_keys]
    rw [filterK_map (markAbsent_fst _ now) k, hfold.1, hany, if_pos rfl]
    refine map_eq_self_of fun e he => ?_
    obtain ⟨x, hx, rfl⟩ := List.mem_map.mp he
    have h1 : x.1 = k := beq_iff_eq.mp (List.mem_filter.mp hx).2
    refine markAbsent_of_contains now ?_
    show ((jwksKeys (some c)).map (·.kid)).contains (touchE now x).1 = true
    show ((jwksKeys (some c)).map (·.kid)).contains x.1 = true
    rw [h1]
    exact hcont
  · rw [UpdateState_events, hfold.2]
    rfl

/-! ## `Merge`, well-formedness and per-step lemmas -/

theorem filterK_filter (k : String) (q : Entry → Bool) (l : List Entry) :
    filterK k (l.filter q) = (filterK k l).filter q := by
  unfold filterK
  rw [List.filter_filter, List.filter_filter]
  exact List.filter_congr fun e _ => Bool.and_comm _ _

theorem kMarks_singleton (k : String) (l : List Entry) (o : Option Int)
    (h : kMarks k l = [o]) :
    ∃ e, filterK k l = [e] ∧ e.2.markedForRemoval = o := by
  unfold kMarks at h
  cases hf : filterK k l with
  | nil => rw [hf] at h; exact absurd h (by simp)
  | cons a t =>
    rw [hf, List.map_cons] at h
    rw [List.cons.injEq] at h
    refine ⟨a, ?_, h.1⟩
    rw [List.map_eq_nil_iff.mp h.2]

theorem kMarks_nil_iff (k : String) (l : List Entry) :
    kMarks k l = [] ↔ filterK k l = [] := by
  unfold kMarks
  exact List.map_eq_nil_iff

theorem countExpiredFor_eq_zero_of {evs : List Event} {k : String}
    (h : evs.countP (fun ev => ev.keyID == k) = 0) :
    countExpiredFor k evs = 0 := by
  unfold countExpiredFor
  rw [List.countP_eq_zero] at h ⊢
  intro ev hev
  have h1 := h ev hev
  cases hk : (ev.keyID == k) with
  | false => simp
  | true => exact absurd hk h1

theorem countExpiredFor_append (k : String) (a b : List Event) :
    countExpiredFor k (a ++ b) = countExpiredFor k a + countExpiredFor k b :=
  List.countP_append _ a b

/-- The `KeyExpired` events of a `CleanupExpired` call that carry a given key
ID are in bijection with the expired entries of the state holding that ID. -/
theorem cleanup_countExpiredFor (m : Merger) (s : State) (now : Int)
    (k : String) :
    countExpiredFor k (m.CleanupExpired s now).2 =
      ((filterK k s.keys).filter (expiredAt m now)).length := by
  rw [CleanupExpired_events]
  unfold countExpiredFor
  rw [List.countP_map, List.countP_eq_length_filter]
  have hcongr : List.filter
      ((fun ev => ev.keyID == k && ev.type == EventType.keyExpired) ∘
        (fun e => keyExpiredEvent now e.1)) (s.keys.filter (expiredAt m now)) =
      List.filter (fun e => e.1 == k) (s.keys.filter (expiredAt m now)) := by
    refine List.filter_congr fun e _ => ?_
    show ((keyExpiredEvent now e.1).keyID == k &&
      ((keyExpiredEvent now e.1).type == EventType.keyExpired)) = (e.1 == k)
    show (e.1 == k && (EventType.keyExpired == EventType.keyExpired)) = (e.1 == k)
    rw [show (EventType.keyExpired == EventType.keyExpired) = true from rfl,
      Bool.and_true]
  rw [hcongr]
  show (filterK k (s.keys.filter (expiredAt m now))).length = _
  rw [filterK_filter]

/-- A key ID that is neither in the source JWKS nor held by any state entry is
absent from the merged publishable JWKS. -/
theorem Merge_not_mem (m : Merger) (c : JWKS) (s : State) (now : Int)
    (k : String) (hkc : ∀ key ∈ c.keys, key.kid ≠ k)
    (hwf : ∀ e ∈ s.keys, e.2.key.kid = e.1) (hks : filterK k s.keys = []) :
    k ∉ kidsOf (m.Merge (some c) s now) := by
  intro hmem
  unfold Merger.Merge at hmem
  rw [if_neg (by simp)] at hmem
  unfold kidsOf at hmem
  rw [List.map_append] at hmem
  rcases List.mem_append.mp hmem with hx | hx
  · obtain ⟨key, hkey, hkid⟩ := List.mem_map.mp hx
    exact hkc key hkey hkid
  · rw [List.map_map] at hx
    obtain ⟨e, he, hkid⟩ := List.mem_map.mp hx
    have hmemf := List.mem_filter.mp he
    have h1 : e.1 = k := (hwf e hmemf.1).symm.trans hkid
    have : e ∈ filterK k s.keys :=
      List.mem_filter.mpr ⟨hmemf.1, beq_iff_eq.mpr h1⟩
    rw [hks] at this
    exact absurd this (List.not_mem_nil e)

/-- Model of `processJWKS` preserves the invariant that each state entry's snapshot key
carries the entry's own key ID. -/
theorem processJWKS_wf (m : Merger) (c : Option JWKS) (s : State) (now : Int)
    (hwf : ∀ e ∈ s.keys, e.2.key.kid = e.1) :
    ∀ e ∈ (processJWKS m c s now).state.keys, e.2.key.kid = e.1 := by
  intro e he
  have he2 : e ∈ (m.UpdateState c s now).1.keys := by
    have : (processJWKS m c s now).state.keys =
        (m.UpdateState c s now).1.keys.filter (fun e => !expiredAt m now e) :=
      CleanupExpired_keys m (m.UpdateState c s now).1 now
    rw [this] at he
    exact (List.mem_filter.mp he).1
  rw [UpdateState_keys] at he2
  obtain ⟨x, hx, rfl⟩ := List.mem_map.mp he2
  rw [markAbsent_fst, markAbsent_key]
  refine foldl_stepKey_preserve (fun e => e.2.key.kid = e.1) now _ (s.keys, [])
    ?_ ?_ hwf x hx
  · intro kid e hPe
    rw [updAt_fst, updAt_key]
    exact hPe
  · intro key _
    rfl

theorem processJWKS_state_keys (m : Merger) (c : Option JWKS) (s : State)
    (now : Int) :
    (processJWKS m c s now).state.keys =
      (m.UpdateState c s now).1.keys.filter (fun e => !expiredAt m now e) :=
  CleanupExpired_keys m (m.UpdateState c s now).1 now

theorem processJWKS_events (m : Merger) (c : Option JWKS) (s : State)
    (now : Int) :
    (processJWKS m c s now).events =
      (m.UpdateState c s now).2 ++
        (m.CleanupExpired (m.UpdateState c s now).1 now).2 := rfl

theorem processJWKS_published (m : Merger) (c : Option JWKS) (s : State)
    (now : Int) :
    (processJWKS m c s now).published =
      m.Merge c (processJWKS m c s now).state now := rfl

/-- One `ProcessJWKS` step for a key ID that has no state entry and is absent
from the source: it stays out of the state, no `KeyExpired` event concerns it,
and it is not published. -/
theorem processJWKS_step_gone (m : Merger) (c : JWKS) (s : State) (now : Int)
    (k : String) (hwf : ∀ e ∈ s.keys, e.2.key.kid = e.1)
    (hks : filterK k s.keys = [])
    (hkc : ∀ key ∈ c.keys, key.kid ≠ k) :
    filterK k (processJWKS m (some c) s now).state.keys = [] ∧
    countExpiredFor k (processJWKS m (some c) s now).events = 0 ∧
    k ∉ kidsOf (processJWKS m (some c) s now).published := by
  have hupd := UpdateState_kMarks_not_mem m (some c) s now k hkc
  have hs₁ : filterK k (m.UpdateState (some c) s now).1.keys = [] := by
    rw [← kMarks_nil_iff]
    rw [hupd.1]
    rw [(kMarks_nil_iff k s.keys).mpr hks]
    rfl
  have hstate : filterK k (processJWKS m (some c) s now).state.keys = [] := by
    rw [processJWKS_state_keys, filterK_filter, hs₁]
    rfl
  refine ⟨hstate, ?_, ?_⟩
  · rw [processJWKS_events, countExpiredFor_append,
      countExpiredFor_eq_zero_of hupd.2, cleanup_countExpiredFor, hs₁]
    rfl
  · rw [processJWKS_published]
    exact Merge_not_mem m c _ now k hkc
      (processJWKS_wf m (some c) s now hwf) hstate

/-- One `ProcessJWKS` step for a key ID whose single state entry is marked at
`T` and which is absent from the source: while `now - T` is below the overlap
window the entry survives with its stamp; once `now - T` reaches the window
the entry is removed, exactly one `KeyExpired` event for it is emitted, and it
is not published. -/
theorem processJWKS_step_marked (m : Merger) (c : JWKS) (s : State)
    (now T : Int) (k : String) (hwf : ∀ e ∈ s.keys, e.2.key.kid = e.1)
    (hm : kMarks k s.keys = [some T])
    (hkc : ∀ key ∈ c.keys, key.kid ≠ k) :
    (m.overlapPeriod ≤ now - T →
      kMarks k (processJWKS m (some c) s now).state.keys = [] ∧
      countExpiredFor k (processJWKS m (some c) s now).events = 1 ∧
      k ∉ kidsOf (processJWKS m (some c) s now).published) ∧
    (¬ m.overlapPeriod ≤ now - T →
      kMarks k (processJWKS m (some c) s now).state.keys = [some T] ∧
      countExpiredFor k (processJWKS m (some c) s now).events = 0) := by
  have hupd := UpdateState_kMarks_not_mem m (some c) s now k hkc
  have hs₁ : kMarks k (m.UpdateState (some c) s now).1.keys = [some T] := by
    rw [hupd.1, hm]
    rfl
  obtain ⟨e₁, he₁, hmark₁⟩ := kMarks_singleton k _ (some T) hs₁
  have hexp : expiredAt m now e₁ = decide (m.overlapPeriod ≤ now - T) := by
    unfold expiredAt
    rw [hmark₁]
  have hstatef : filterK k (processJWKS m (some c) s now).state.keys =
      [e₁].filter (fun e => !expiredAt m now e) := by
    rw [processJWKS_state_keys, filterK_filter, he₁]
  have hcount : countExpiredFor k (processJWKS m (some c) s now).events =
      ([e₁].filter (expiredAt m now)).length := by
    rw [processJWKS_events, countExpiredFor_append,
      countExpiredFor_eq_zero_of hupd.2, cleanup_countExpiredFor, he₁]
    exact Nat.zero_add _
  constructor
  · intro hle
    have hexp' : expiredAt m now e₁ = true := by
      rw [hexp]; exact decide_eq_true hle
    have hstate : filterK k (processJWKS m (some c) s now).state.keys = [] := by
      rw [hstatef, List.filter_cons, hexp']
      rfl
    refine ⟨(kMarks_nil_iff k _).mpr hstate, ?_, ?_⟩
    · rw [hcount, List.filter_cons, hexp']
      rfl
    · rw [processJWKS_published]
      exact Merge_not_mem m c _ now k hkc
        (processJWKS_wf m (some c) s now hwf) hstate
  · intro hlt
    have hexp' : expiredAt m now e₁ = false := by
      rw [hexp]; exact decide_eq_false hlt
    constructor
    · have hkeep : filterK k (processJWKS m (some c) s now).state.keys = [e₁] := by
        rw [hstatef, List.filter_cons, hexp']
        rfl
      unfold kMarks
      rw [hkeep, List.map_cons, List.map_nil, hmark₁]
    · rw [hcount, List.filter_cons, hexp']
      rfl

/-! ## Sequence-level lemmas for the temporal claim -/

theorem runProcess_gone (m : Merger) (k : String) (s : State)
    (invs : List (JWKS × Int))
    (hwf : ∀ e ∈ s.keys, e.2.key.kid = e.1)
    (hks : filterK k s.keys = [])
    (habs : ∀ p ∈ invs, ∀ key ∈ p.1.keys, key.kid ≠ k) :
    (∀ st ∈ (runProcess m s invs).2, k ∉ kidsOf st.published) ∧
    countExpiredFor k ((runProcess m s invs).2.flatMap (·.events)) = 0 := by
  induction invs generalizing s with
  | nil => exact ⟨fun st hst => absurd hst (List.not_mem_nil st), rfl⟩
  | cons p rest ih =>
    obtain ⟨c, t⟩ := p
    have hstep := processJWKS_step_gone m c s t k hwf hks
      (habs (c, t) (List.mem_cons_self _ _))
    have hwf' := processJWKS_wf m (some c) s t hwf
    have hih := ih (processJWKS m (some c) s t).state hwf' hstep.1
      (fun p' hp' => habs p' (List.mem_cons_of_mem _ hp'))
    constructor
    · intro st hst
      rcases List.mem_cons.mp hst with hx | hx
      · rw [hx]
        exact hstep.2.2
      · exact hih.1 st hx
    · show countExpiredFor k
        (((⟨t, (processJWKS m (some c) s t).events,
            (processJWKS m (some c) s t).published⟩ : StepResult) ::
          (runProcess m (processJWKS m (some c) s t).state rest).2).flatMap
            (·.events)) = 0
      rw [List.flatMap_cons, countExpiredFor_append, hstep.2.1, hih.2]

theorem runProcess_marked (m : Merger) (k : String) (T : Int) (s : State)
    (invs : List (JWKS × Int))
    (hwf : ∀ e ∈ s.keys, e.2.key.kid = e.1)
    (hm : kMarks k s.keys = [some T])
    (habs : ∀ p ∈ invs, ∀ key ∈ p.1.keys, key.kid ≠ k) :
    (∀ st ∈ (runProcess m s invs).2,
      T + m.overlapPeriod ≤ st.now → k ∉ kidsOf st.published) ∧
    countExpiredFor k ((runProcess m s invs).2.flatMap (·.events)) =
      (if (runProcess m s invs).2.any
          (fun st => decide (T + m.overlapPeriod ≤ st.now)) = true
        then 1 else 0) := by
  induction invs generalizing s with
  | nil => exact ⟨fun st hst => absurd hst (List.not_mem_nil st), rfl⟩
  | cons p rest ih =>
    obtain ⟨c, t⟩ := p
    have habst := habs (c, t) (List.mem_cons_self _ _)
    have habsr := fun p' hp' => habs p' (List.mem_cons_of_mem (c, t) hp')
    have hwf' := processJWKS_wf m (some c) s t hwf
    have hstep := processJWKS_step_marked m c s t T k hwf hm habst
    have hcons2 : (runProcess m s ((c, t) :: rest)).2 =
        (⟨t, (processJWKS m (some c) s t).events,
          (processJWKS m (some c) s t).published⟩ : StepResult) ::
          (runProcess m (processJWKS m (some c) s t).state rest).2 := rfl
    by_cases hle : m.overlapPeriod ≤ t - T
    · have hdone := hstep.1 hle
      have hgone := runProcess_gone m k (processJWKS m (some c) s t).state rest
        hwf' ((kMarks_nil_iff k _).mp hdone.1) habsr
      constructor
      · intro st hst _
        rw [hcons2] at hst
        rcases List.mem_cons.mp hst with hx | hx
        · rw [hx]
          exact hdone.2.2
        · exact hgone.1 st hx
      · rw [hcons2, List.flatMap_cons, countExpiredFor_append, hdone.2.1,
          hgone.2]
        have hany : ((⟨t, (processJWKS m (some c) s t).events,
            (processJWKS m (some c) s t).published⟩ : StepResult) ::
            (runProcess m (processJWKS m (some c) s t).state rest).2).any
              (fun st => decide (T + m.overlapPeriod ≤ st.now)) = true := by
          rw [List.any_cons]
          have : decide (T + m.overlapPeriod ≤
              (⟨t, (processJWKS m (some c) s t).events,
                (processJWKS m (some c) s t).published⟩ : StepResult).now) =
              true := decide_eq_true (by
                show T + m.overlapPeriod ≤ t
                omega)
          rw [this, Bool.true_or]
        rw [hany]
        rfl
    · have hkeep := hstep.2 hle
      have hih := ih (processJWKS m (some c) s t).state hwf' hkeep.1 habsr
      constructor
      · intro st hst hnow
        rw [hcons2] at hst
        rcases List.mem_cons.mp hst with hx | hx
        · exfalso
          rw [hx] at hnow
          exact hle (by
            have : T + m.overlapPeriod ≤ t := hnow
            omega)
        · exact hih.1 st hx hnow
      · rw [hcons2, List.flatMap_cons, countExpiredFor_append, hkeep.2,
          Nat.zero_add, List.any_cons]
        have hdec : decide (T + m.overlapPeriod ≤
            (⟨t, (processJWKS m (some c) s t).events,
              (processJWKS m (some c) s t).published⟩ : StepResult).now) =
            false := decide_eq_false (by
              show ¬ T + m.overlapPeriod ≤ t
              omega)
        rw [hdec, Bool.false_or]
        exact hih.2

/-! ## Lemmas for the idempotence claim -/

theorem processJWKS_lastSeen_current (m : Merger) (c : JWKS) (s : State)
    (now : Int) :
    ∀ e ∈ (processJWKS m (some c) s now).state.keys,
      (∃ key ∈ c.keys, key.kid = e.1) → e.2.lastSeen = now := by
  intro e he hex
  rw [processJWKS_state_keys] at he
  have he1 := (List.mem_filter.mp he).1
  rw [UpdateState_keys] at he1
  obtain ⟨x, hx, rfl⟩ := List.mem_map.mp he1
  rw [markAbsent_lastSeen]
  rw [markAbsent_fst] at hex
  exact foldl_stepKey_lastSeen x.1 now (jwksKeys (some c)) (s.keys, []) hex x hx
    rfl

theorem processJWKS_marked_absent (m : Merger) (c : JWKS) (s : State)
    (now : Int) :
    ∀ e ∈ (processJWKS m (some c) s now).state.keys,
      (∀ key ∈ c.keys, key.kid ≠ e.1) → e.2.markedForRemoval.isSome = true := by
  intro e he hne
  rw [processJWKS_state_keys] at he
  have he1 := (List.mem_filter.mp he).1
  rw [UpdateState_keys] at he1
  obtain ⟨x, hx, rfl⟩ := List.mem_map.mp he1
  rw [markAbsent_fst] at hne
  rw [markAbsent_markedForRemoval]
  cases hm : x.2.markedForRemoval with
  | some t =>
    rw [if_neg (fun hcon => Option.noConfusion hcon.2)]
    rfl
  | none =>
    rw [if_pos]
    · rfl
    · refine ⟨?_, rfl⟩
      cases hb : ((jwksKeys (some c)).map (·.kid)).contains x.1 with
      | false => rfl
      | true =>
        obtain ⟨key, hkey, hkid⟩ := List.mem_map.mp (contains_iff_mem.mp hb)
        exact absurd hkid (hne key hkey)

theorem processJWKS_exists_current (m : Merger) (c : JWKS) (s : State)
    (now : Int)
    (hsafe : ∀ e ∈ s.keys, (∃ key ∈ c.keys, key.kid = e.1) →
      ∀ t, e.2.markedForRemoval = some t → now - t < m.overlapPeriod) :
    ∀ key ∈ c.keys, ∃ e ∈ (processJWKS m (some c) s now).state.keys,
      e.1 = key.kid := by
  intro key hkey
  have hQ : ∃ e ∈ ((jwksKeys (some c)).foldl (stepKey now) (s.keys, [])).1,
      e.1 = key.kid ∧ (e.2.markedForRemoval = none ∨
        ∃ t, e.2.markedForRemoval = some t ∧ now - t < m.overlapPeriod) := by
    refine foldl_stepKey_exists_kid key.kid
      (fun o => o = none ∨ ∃ t, o = some t ∧ now - t < m.overlapPeriod) now
      (jwksKeys (some c)) (s.keys, []) (Or.inl rfl) ⟨key, hkey, rfl⟩ ?_
    intro e he h1
    cases hm : e.2.markedForRemoval with
    | none => exact Or.inl rfl
    | some t =>
      exact Or.inr ⟨t, rfl, hsafe e he ⟨key, hkey, h1.symm⟩ t hm⟩
  obtain ⟨x, hx, hx1, hxq⟩ := hQ
  have hcont : ((jwksKeys (some c)).map (·.kid)).contains x.1 = true := by
    rw [hx1]
    exact contains_iff_mem.mpr (List.mem_map.mpr ⟨key, hkey, rfl⟩)
  have hnoexp : expiredAt m now x = false := by
    unfold expiredAt
    rcases hxq with hq | ⟨t, hq, hlt⟩
    · rw [hq]
    · rw [hq]
      exact decide_eq_false (by omega)
  refine ⟨x, ?_, hx1⟩
  rw [processJWKS_state_keys]
  refine List.mem_filter.mpr ⟨?_, by rw [hnoexp]; rfl⟩
  rw [UpdateState_keys]
  have : markAbsent ((jwksKeys (some c)).map (·.kid)) now x = x :=
    markAbsent_of_contains now hcont
  rw [← this]
  exact List.mem_map_of_mem _ hx

theorem Merge_congr_keys (m : Merger) (cur : Option JWKS) (s s' : State)
    (now : Int) (h : s.keys = s'.keys) :
    m.Merge cur s now = m.Merge cur s' now := by
  unfold Merger.Merge
  rw [h]

/-- Running `processJWKS` a second time with the same source JWKS at the same
instant changes nothing but the version counter, provided no key of the source
was already marked long enough ago to fall past the overlap window. -/
theorem processJWKS_twice (m : Merger) (c : JWKS) (s : State) (now : Int)
    (hsafe : ∀ e ∈ s.keys, (∃ key ∈ c.keys, key.kid = e.1) →
      ∀ t, e.2.markedForRemoval = some t → now - t < m.overlapPeriod) :
    (processJWKS m (some c) (processJWKS m (some c) s now).state now).state =
      { (processJWKS m (some c) s now).state with
          version := (processJWKS m (some c) s now).state.version + 1 } ∧
    (processJWKS m (some c) (processJWKS m (some c) s now).state now).events
      = [] ∧
    (processJWKS m (some c) (processJWKS m (some c) s now).state now).published
      = (processJWKS m (some c) s now).published := by
  set s₁ := (processJWKS m (some c) s now).state with hs₁
  have hfold : (jwksKeys (some c)).foldl (stepKey now) (s₁.keys, []) =
      (s₁.keys, []) :=
    foldl_stepKey_id now (jwksKeys (some c)) s₁.keys
      (fun e he hex => processJWKS_lastSeen_current m c s now e he hex)
      (fun key hkey => processJWKS_exists_current m c s now hsafe key hkey)
  have hmark : s₁.keys.map
      (markAbsent ((jwksKeys (some c)).map (·.kid)) now) = s₁.keys := by
    refine map_eq_self_of fun e he => ?_
    cases hb : ((jwksKeys (some c)).map (·.kid)).contains e.1 with
    | true => exact markAbsent_of_contains now hb
    | false =>
      refine markAbsent_of_isSome now
        (processJWKS_marked_absent m c s now e he ?_)
      intro key hkey hkid
      have hb' : ((jwksKeys (some c)).map (·.kid)).contains e.1 = true := by
        rw [← hkid]
        exact contains_iff_mem.mpr (List.mem_map.mpr ⟨key, hkey, rfl⟩)
      rw [hb'] at hb
      exact Bool.noConfusion hb
  have hmark' : ((s₁.keys, ([] : List Event)).1).map
      (markAbsent ((jwksKeys (some c)).map (·.kid)) now) = s₁.keys := hmark
  have hupd : m.UpdateState (some c) s₁ now =
      ((⟨s₁.keys, now, s₁.version + 1⟩ : State), ([] : List Event)) := by
    simp only [Merger.UpdateState]
    rw [hfold, hmark']
  have hnoexp : ∀ e ∈ s₁.keys, expiredAt m now e = false := by
    intro e he
    rw [hs₁, processJWKS_state_keys] at he
    have hmem := (List.mem_filter.mp he).2
    cases hexp : expiredAt m now e with
    | false => rfl
    | true => rw [hexp] at hmem; exact absurd hmem (by decide)
  have hclean : m.CleanupExpired
      ((⟨s₁.keys, now, s₁.version + 1⟩ : State)) now =
      ((⟨s₁.keys, now, s₁.version + 1⟩ : State), []) :=
    CleanupExpired_of_no_expired m _ now hnoexp
  have hlu : s₁.lastUpdated = now := by
    rw [hs₁]
    show (m.CleanupExpired (m.UpdateState (some c) s now).1 now).1.lastUpdated
      = now
    exact CleanupExpired_lastUpdated m _ now
      (UpdateState_lastUpdated m (some c) s now)
  have hstate2 :
      (processJWKS m (some c) s₁ now).state =
        (⟨s₁.keys, now, s₁.version + 1⟩ : State) := by
    show (m.CleanupExpired (m.UpdateState (some c) s₁ now).1 now).1 = _
    rw [hupd, hclean]
  refine ⟨?_, ?_, ?_⟩
  · rw [hstate2]
    show (⟨s₁.keys, now, s₁.version + 1⟩ : State) =
      (⟨s₁.keys, s₁.lastUpdated, s₁.version + 1⟩ : State)
    rw [hlu]
  · show (m.UpdateState (some c) s₁ now).2 ++
      (m.CleanupExpired (m.UpdateState (some c) s₁ now).1 now).2 = []
    rw [hupd, hclean]
    rfl
  · show m.Merge (some c) (processJWKS m (some c) s₁ now).state now =
      m.Merge (some c) s₁ now
    refine Merge_congr_keys m (some c) _ _ now ?_
    rw [hstate2]

/-! ## Published-set characterisation -/

theorem shouldKeep_eq_not_expired (m : Merger) (now : Int) (e : Entry) :
    m.shouldKeepKey e.2 now = !expiredAt m now e := by
  unfold Merger.shouldKeepKey expiredAt
  cases e.2.markedForRemoval with
  | none => rfl
  | some t =>
    show decide (now - t < m.overlapPeriod) =
      !decide (m.overlapPeriod ≤ now - t)
    by_cases h : m.overlapPeriod ≤ now - t
    · rw [decide_eq_true h, decide_eq_false (by omega)]
      rfl
    · rw [decide_eq_false h, decide_eq_true (by omega)]
      rfl

theorem hasKey_eq_false_of_not_mem {c : JWKS} {k : String}
    (h : k ∉ kidsOf c) : hasKey c k = false := by
  cases hb : hasKey c k with
  | false => rfl
  | true =>
    obtain ⟨key, hkey, hkid⟩ := List.any_eq_true.mp hb
    exact absurd (List.mem_map.mpr ⟨key, hkey, beq_iff_eq.mp hkid⟩) h

theorem mem_filterK {k : String} {l : List Entry} {e : Entry} :
    e ∈ filterK k l ↔ e ∈ l ∧ e.1 = k := by
  unfold filterK
  rw [List.mem_filter]
  exact and_congr_right fun _ => beq_iff_eq

/-- The key-ID membership of the publishable JWKS computed by one
`ProcessJWKS` call, characterised against the input rotation state: exactly
the source key IDs, plus the IDs of state entries absent from the source
whose (effective) marking instant is within the overlap window — an entry not
yet marked counts as marked at the current instant. -/
theorem processJWKS_published_mem (m : Merger) (c : JWKS) (s : State)
    (now : Int) (k : String) (hwf : ∀ e ∈ s.keys, e.2.key.kid = e.1) :
    k ∈ kidsOf (processJWKS m (some c) s now).published ↔
      k ∈ kidsOf c ∨ (k ∉ kidsOf c ∧ ∃ e ∈ s.keys, e.1 = k ∧
        now - (e.2.markedForRemoval.getD now) < m.overlapPeriod) := by
  have hwf₂ := processJWKS_wf m (some c) s now hwf
  by_cases hkc : k ∈ kidsOf c
  · constructor
    · intro _
      exact Or.inl hkc
    · intro _
      rw [processJWKS_published]
      unfold Merger.Merge
      rw [if_neg (by simp)]
      unfold kidsOf
      rw [List.map_append]
      exact List.mem_append_left _ hkc
  · have hkc' : ∀ key ∈ jwksKeys (some c), key.kid ≠ k :=
      fun key hkey h => hkc (List.mem_map.mpr ⟨key, hkey, h⟩)
    have hupd := (UpdateState_kMarks_not_mem m (some c) s now k hkc').1
    have hkeysplit : (processJWKS m (some c) s now).state.keys =
        (m.UpdateState (some c) s now).1.keys.filter
          (fun e => !expiredAt m now e) := processJWKS_state_keys m (some c) s now
    constructor
    · intro hmem
      rw [processJWKS_published] at hmem
      unfold Merger.Merge at hmem
      rw [if_neg (by simp)] at hmem
      unfold kidsOf at hmem
      rw [List.map_append] at hmem
      rcases List.mem_append.mp hmem with hx | hx
      · exact absurd hx hkc
      · rw [List.map_map] at hx
        obtain ⟨e, he, hkid⟩ := List.mem_map.mp hx
        have he₂ := (List.mem_filter.mp he).1
        have h1 : e.1 = k := (hwf₂ e he₂).symm.trans hkid
        have heu : e ∈ (m.UpdateState (some c) s now).1.keys ∧
            (!expiredAt m now e) = true := by
          rw [hkeysplit] at he₂
          exact List.mem_filter.mp he₂
        have homark : e.2.markedForRemoval ∈
            kMarks k (m.UpdateState (some c) s now).1.keys :=
          List.mem_map_of_mem _ (mem_filterK.mpr ⟨heu.1, h1⟩)
        rw [hupd] at homark
        obtain ⟨o', ho', hfo⟩ := List.mem_map.mp homark
        obtain ⟨e₀, he₀, hmark₀⟩ := List.mem_map.mp ho'
        have he₀s := mem_filterK.mp he₀
        refine Or.inr ⟨hkc, e₀, he₀s.1, he₀s.2, ?_⟩
        have hexp : expiredAt m now e = false := by
          cases hb : expiredAt m now e with
          | false => rfl
          | true => rw [hb] at heu; exact absurd heu.2 (by decide)
        rw [← hmark₀] at hfo
        have hexp2 : decide (m.overlapPeriod ≤ now -
            (e₀.2.markedForRemoval.getD now)) = false := by
          unfold expiredAt at hexp
          rw [← hfo] at hexp
          exact hexp
        have := of_decide_eq_false hexp2
        omega
    · rintro (hx | ⟨-, e₀, he₀, h1, hcond⟩)
      · exact absurd hx hkc
      · have homark : some (e₀.2.markedForRemoval.getD now) ∈
            kMarks k (m.UpdateState (some c) s now).1.keys := by
          rw [hupd]
          exact List.mem_map_of_mem _
            (List.mem_map_of_mem _ (mem_filterK.mpr ⟨he₀, h1⟩))
        obtain ⟨e, he, hmark⟩ := List.mem_map.mp homark
        have heu := mem_filterK.mp he
        have hexp : expiredAt m now e = false := by
          unfold expiredAt
          rw [hmark]
          exact decide_eq_false (by omega)
        have he₂ : e ∈ (processJWKS m (some c) s now).state.keys := by
          rw [hkeysplit]
          exact List.mem_filter.mpr ⟨heu.1, by rw [hexp]; rfl⟩
        rw [processJWKS_published]
        unfold Merger.Merge
        rw [if_neg (by simp)]
        unfold kidsOf
        rw [List.map_append]
        refine List.mem_append_right _ ?_
        rw [List.map_map]
        refine List.mem_map.mpr ⟨e, ?_, (hwf₂ e he₂).trans heu.2⟩
        refine List.mem_filter.mpr ⟨he₂, ?_⟩
        show (!hasKeyOpt (some c) e.1 && m.shouldKeepKey e.2 now) = true
        rw [shouldKeep_eq_not_expired, hexp]
        rw [show hasKeyOpt (some c) e.1 = hasKey c e.1 from rfl]
        rw [heu.2, hasKey_eq_false_of_not_mem hkc]
        rfl

/-! ## Aggregator lemmas -/

theorem mem_map_kid_dedupByKid (seen : List String) (l : List JWK)
    (k : String) :
    k ∈ (dedupByKid seen l).map (·.kid) ↔
      k ∉ seen ∧ k ∈ l.map (·.kid) := by
  induction l generalizing seen with
  | nil => simp [dedupByKid]
  | cons key rest ih =>
    unfold dedupByKid
    cases hb : seen.contains key.kid with
    | true =>
      rw [if_pos rfl]
      have hkmem : key.kid ∈ seen := contains_iff_mem.mp hb
      simp only [List.map_cons, List.mem_cons]
      rw [ih]
      constructor
      · rintro ⟨hns, hr⟩
        exact ⟨hns, Or.inr hr⟩
      · rintro ⟨hns, hk | hr⟩
        · exact absurd (hk ▸ hkmem) hns
        · exact ⟨hns, hr⟩
    | false =>
      rw [if_neg Bool.false_ne_true]
      have hknm : key.kid ∉ seen := fun hmem =>
        Bool.noConfusion (hb ▸ contains_iff_mem.mpr hmem)
      simp only [List.map_cons, List.mem_cons]
      rw [ih]
      constructor
      · rintro (hk | ⟨hns, hr⟩)
        · exact ⟨hk ▸ hknm, Or.inl hk⟩
        · exact ⟨fun hs => hns (List.mem_cons.mpr (Or.inr hs)), Or.inr hr⟩
      · rintro ⟨hns, hk | hr⟩
        · exact Or.inl hk
        · by_cases hkk : k = key.kid
          · exact Or.inl hkk
          · exact Or.inr ⟨fun hs => (List.mem_cons.mp hs).elim hkk hns, hr⟩

theorem dedupByKid_first (seen : List String) (l : List JWK) :
    ∀ j ∈ dedupByKid seen l,
      l.find? (fun j' => j'.kid == j.kid) = some j ∧ j.kid ∉ seen := by
  induction l generalizing seen with
  | nil => intro j hj; exact absurd hj (List.not_mem_nil j)
  | cons key rest ih =>
    intro j hj
    unfold dedupByKid at hj
    cases hb : seen.contains key.kid with
    | true =>
      rw [if_pos hb] at hj
      obtain ⟨hfind, hns⟩ := ih seen j hj
      have hne : (key.kid == j.kid) = false := by
        rw [beq_eq_false_iff_ne]
        exact fun hk => hns (hk ▸ contains_iff_mem.mp hb)
      rw [List.find?_cons, hne]
      exact ⟨hfind, hns⟩
    | false =>
      rw [if_neg (by rw [hb]; exact Bool.false_ne_true)] at hj
      have hknm : key.kid ∉ seen := fun hmem =>
        Bool.noConfusion (hb ▸ contains_iff_mem.mpr hmem)
      rcases List.mem_cons.mp hj with hk | hj'
      · rw [hk]
        rw [List.find?_cons, show (key.kid == key.kid) = true from
          beq_iff_eq.mpr rfl]
        exact ⟨rfl, hknm⟩
      · obtain ⟨hfind, hns⟩ := ih (key.kid :: seen) j hj'
        have hne : (key.kid == j.kid) = false := by
          rw [beq_eq_false_iff_ne]
          exact fun hk => hns (hk ▸ List.mem_cons_self _ _)
        refine ⟨?_, fun hs => hns (List.mem_cons_of_mem _ hs)⟩
        rw [List.find?_cons, hne]
        exact hfind

theorem dedupByKid_nodup (seen : List String) (l : List JWK) :
    ((dedupByKid seen l).map (·.kid)).Nodup := by
  induction l generalizing seen with
  | nil => exact List.nodup_nil
  | cons key rest ih =>
    unfold dedupByKid
    cases hb : seen.contains key.kid with
    | true =>
      rw [if_pos rfl]
      exact ih seen
    | false =>
      rw [if_neg Bool.false_ne_true]
      rw [List.map_cons]
      refine List.nodup_cons.mpr ⟨?_, ih (key.kid :: seen)⟩
      intro hmem
      exact ((mem_map_kid_dedupByKid (key.kid :: seen) rest key.kid).mp
        hmem).1 (List.mem_cons_self _ _)

/-! ## URL parsing lemmas -/

theorem splitSchemeAux_exact (pre rest : List Char) (hpre : ':' ∉ pre) :
    splitSchemeAux (pre ++ ':' :: '/' :: '/' :: rest) = some (pre, rest) := by
  induction pre with
  | nil =>
    show splitSchemeAux (':' :: '/' :: '/' :: rest) = some ([], rest)
    unfold splitSchemeAux
    rw [if_pos ⟨rfl, rfl⟩]
    rfl
  | cons c pre' ih =>
    rw [List.cons_append]
    unfold splitSchemeAux
    rw [if_neg (fun h => hpre (by
      rw [← h.1]
      exact List.mem_cons_self c pre'))]
    rw [ih fun hmem => hpre (List.mem_cons_of_mem c hmem)]

theorem takeWhile_append_stop (p : Char → Bool) (a b : List Char)
    (ha : ∀ ch ∈ a, p ch = true)
    (hb : b = [] ∨ ∃ ch rest, b = ch :: rest ∧ p ch = false) :
    (a ++ b).takeWhile p = a ∧ (a ++ b).dropWhile p = b := by
  induction a with
  | nil =>
    rcases hb with rfl | ⟨ch, rest, rfl, hpf⟩
    · exact ⟨rfl, rfl⟩
    · rw [List.nil_append, List.takeWhile_cons, List.dropWhile_cons, hpf]
      exact ⟨rfl, rfl⟩
  | cons c a' ih =>
    have hpc : p c = true := ha c (List.mem_cons_self c a')
    obtain ⟨ih1, ih2⟩ := ih fun ch hch => ha ch (List.mem_cons_of_mem c hch)
    rw [List.cons_append, List.takeWhile_cons, List.dropWhile_cons, hpc]
    rw [if_pos rfl, if_pos rfl, ih1, ih2]
    exact ⟨rfl, rfl⟩

theorem parseURL_parts (sch host path : List Char) (hnc : ':' ∉ sch)
    (hnosl : ∀ ch ∈ host, ch ≠ '/')
    (hpath : path = [] ∨ ∃ rest, path = '/' :: rest) :
    parseURL (String.mk (sch ++ ':' :: '/' :: '/' :: (host ++ path))) =
      ⟨String.mk sch, String.mk host, String.mk path⟩ := by
  have hsplit : (host ++ path).takeWhile (fun ch => ch ≠ '/') = host ∧
      (host ++ path).dropWhile (fun ch => ch ≠ '/') = path := by
    refine takeWhile_append_stop _ host path
      (fun ch hch => decide_eq_true (hnosl ch hch)) ?_
    rcases hpath with rfl | ⟨rest, rfl⟩
    · exact Or.inl rfl
    · exact Or.inr ⟨'/', rest, rfl, decide_eq_false (by simp)⟩
  unfold parseURL
  rw [show (String.mk (sch ++ ':' :: '/' :: '/' :: (host ++ path))).toList =
    sch ++ ':' :: '/' :: '/' :: (host ++ path) from rfl]
  rw [splitSchemeAux_exact sch (host ++ path) hnc]
  show (⟨String.mk sch,
    String.mk ((host ++ path).takeWhile (fun ch => ch ≠ '/')),
    String.mk ((host ++ path).dropWhile (fun ch => ch ≠ '/'))⟩ : GoURL) = _
  rw [hsplit.1, hsplit.2]

/-! ## Concrete fixtures used by counterexamples and witnesses -/

/-- A minimal RSA JWK with the given key ID. -/
def kRSA (kid : String) : JWK :=
  ⟨"RSA", kid, "", "", "", ""⟩

/-- A merger with a 10-unit overlap window. -/
def exampleMerger : Merger := ⟨10⟩

/-- A source JWKS holding the single key `k1`. -/
def exampleJWKS : JWKS := ⟨[kRSA "k1"]⟩

/-- A rotation state whose single entry `k1` is marked for removal at 0. -/
def exampleMarkedState : State :=
  ⟨[("k1", ⟨"k1", kRSA "k1", 0, 0, some 0⟩)], 0, 1⟩

/-- A rotation state whose single entry `k1` is live (not marked). -/
def exampleFreshState : State :=
  ⟨[("k1", ⟨"k1", kRSA "k1", 0, 0, none⟩)], 0, 1⟩

/-- A discovery document as fetched from the API server. -/
def exampleDoc : DiscoveryDocument :=
  ⟨"https://internal", "https://internal/openid/v1/jwks", "", "", "",
    ["id_token"], [], ["public"], ["RS256"], [], []⟩

/-! ## Claims -/

/-- C5 (confirmed): every storage-adapter put is preceded by a head of the
same object: a head reporting the object absent leads to a put with no
precondition token; a head returning an ETag leads to a put conditioned on
exactly that ETag (any other head outcome aborts before the put); and a put
answered with a 412-equivalent precondition failure makes `uploadObject`
return success, not an error. -/
theorem c5_theorem (put : Option String → PutResult) (etag msg : String) :
    (uploadObject HeadResult.notFound put).putArg = some none ∧
    (uploadObject (HeadResult.found etag) put).putArg = some (some etag) ∧
    (uploadObject (HeadResult.failed msg) put).putArg = none ∧
    (put none = PutResult.preconditionFailed →
      (uploadObject HeadResult.notFound put).result = Except.ok ()) ∧
    (put (some etag) = PutResult.preconditionFailed →
      (uploadObject (HeadResult.found etag) put).result = Except.ok ()) := by
  refine ⟨?_, ?_, rfl, ?_, ?_⟩
  · cases hput : put none <;> simp [uploadObject, runPut, hput]
  · cases hput : put (some etag) <;> simp [uploadObject, runPut, hput]
  · intro h
    simp [uploadObject, runPut, h]
  · intro h
    simp [uploadObject, runPut, h]

/-- C5 witness: with a backend that answers every put with 412 and a head
that returns ETag `abc`, the upload passes `abc` as precondition and reports
success. -/
theorem c5_witness :
    (uploadObject (HeadResult.found "abc")
        (fun _ => PutResult.preconditionFailed)).result = Except.ok () ∧
    (uploadObject (HeadResult.found "abc")
        (fun _ => PutResult.preconditionFailed)).putArg = some (some "abc") :=
  ⟨(c5_theorem (fun _ => PutResult.preconditionFailed) "abc" "m").2.2.2.2 rfl,
    (c5_theorem (fun _ => PutResult.preconditionFailed) "abc" "m").2.1⟩

/-- C6 counterexample: a Save whose first Update attempt hits a conflict
while a second attempt would succeed still fails after exactly one Update
call — the store performs no internal retry of the load-modify-save cycle. -/
theorem c6_counterexample :
    (ConfigMapStore.Save GetCMResult.found
        (fun n => if n = 0 then UpdateResult.conflict else UpdateResult.ok)
        CreateResult.ok).result =
      Except.error "failed to update ConfigMap: conflict" ∧
    (ConfigMapStore.Save GetCMResult.found
        (fun n => if n = 0 then UpdateResult.conflict else UpdateResult.ok)
        CreateResult.ok).updateCalls = 1 ∧
    (fun n => if n = 0 then UpdateResult.conflict else UpdateResult.ok) 1 =
      UpdateResult.ok :=
  ⟨rfl, rfl, rfl⟩

/-- C6 (corrected): `ConfigMapStore.Save` performs a single get followed by
at most one update (or one create); a concurrent-write conflict on the update
is returned to the caller as an error without any internal retry. -/
theorem c6_theorem (g : GetCMResult) (u : Nat → UpdateResult)
    (c : CreateResult) :
    (ConfigMapStore.Save g u c).updateCalls ≤ 1 ∧
    (g = GetCMResult.found → u 0 = UpdateResult.conflict →
      (ConfigMapStore.Save g u c).result =
        Except.error "failed to update ConfigMap: conflict") := by
  unfold ConfigMapStore.Save
  cases g with
  | failed msg => exact ⟨Nat.zero_le 1, fun h => GetCMResult.noConfusion h⟩
  | notFound =>
    cases c with
    | ok => exact ⟨Nat.zero_le 1, fun h => GetCMResult.noConfusion h⟩
    | failed msg => exact ⟨Nat.zero_le 1, fun h => GetCMResult.noConfusion h⟩
  | found =>
    cases hu : u 0 with
    | ok => exact ⟨Nat.le_refl 1, fun _ h0 => UpdateResult.noConfusion h0⟩
    | conflict => exact ⟨Nat.le_refl 1, fun _ _ => rfl⟩
    | failed msg =>
      exact ⟨Nat.le_refl 1, fun _ h0 => UpdateResult.noConfusion h0⟩

/-- C6 witness: a Save against an always-conflicting update makes at most one
attempt and surfaces the conflict error. -/
theorem c6_witness :
    (ConfigMapStore.Save GetCMResult.found (fun _ => UpdateResult.conflict)
        CreateResult.ok).updateCalls ≤ 1 ∧
    (ConfigMapStore.Save GetCMResult.found (fun _ => UpdateResult.conflict)
        CreateResult.ok).result =
      Except.error "failed to update ConfigMap: conflict" :=
  ⟨(c6_theorem GetCMResult.found (fun _ => UpdateResult.conflict)
      CreateResult.ok).1,
    (c6_theorem GetCMResult.found (fun _ => UpdateResult.conflict)
      CreateResult.ok).2 rfl rfl⟩

/-- C7 counterexample: with the cache record present but `discovery.json`
absent, `Reconcile` returns a non-nil error, which the controller framework
requeues — the reconciliation is not dropped. -/
theorem c7_counterexample :
    Reconcile (some ⟨none, some "jwks"⟩) (fun _ => true) true true =
      ⟨false, some "discovery.json not found in OIDC metadata ConfigMap"⟩ ∧
    frameworkRequeues
      (Reconcile (some ⟨none, some "jwks"⟩) (fun _ => true) true true) =
      true :=
  ⟨rfl, rfl⟩

/-- C7 (corrected): a cache record missing one of its two payloads makes
`Reconcile` return an error together with a no-requeue `ctrl.Result`; under
controller-runtime's semantics a returned error requeues the request with
backoff, so the reconciliation is retried rather than dropped until the
record changes. -/
theorem c7_theorem (data : CacheRecordData) (decodeOk : String → Bool)
    (rotationOk publishOk : Bool) :
    (data.discovery = none →
      (Reconcile (some data) decodeOk rotationOk publishOk).requeue = false ∧
      (Reconcile (some data) decodeOk rotationOk publishOk).err.isSome =
        true ∧
      frameworkRequeues
        (Reconcile (some data) decodeOk rotationOk publishOk) = true) ∧
    (∀ d, data.discovery = some d → decodeOk d = true → data.jwks = none →
      (Reconcile (some data) decodeOk rotationOk publishOk).requeue = false ∧
      (Reconcile (some data) decodeOk rotationOk publishOk).err.isSome =
        true ∧
      frameworkRequeues
        (Reconcile (some data) decodeOk rotationOk publishOk) = true) := by
  obtain ⟨disc, jw⟩ := data
  constructor
  · intro hd
    have hd' : disc = none := hd
    subst hd'
    exact ⟨rfl, rfl, rfl⟩
  · intro d hd hdec hj
    have hd' : disc = some d := hd
    have hj' : jw = none := hj
    subst hd'
    subst hj'
    have hval : Reconcile (some ⟨some d, none⟩) decodeOk rotationOk publishOk
        = ⟨false, some "jwks.json not found in OIDC metadata ConfigMap"⟩ := by
      show (if !decodeOk d then
          (⟨false, some "failed to unmarshal discovery.json from ConfigMap"⟩ :
            ReconcileOutcome)
        else ⟨false, some "jwks.json not found in OIDC metadata ConfigMap"⟩) =
        ⟨false, some "jwks.json not found in OIDC metadata ConfigMap"⟩
      rw [hdec]
      rfl
    rw [hval]
    exact ⟨rfl, rfl, rfl⟩

/-- C7 witness: the missing-discovery-payload case at a concrete record. -/
theorem c7_witness :
    (Reconcile (some ⟨none, some "x"⟩) (fun _ => true) true true).requeue =
      false ∧
    (Reconcile (some ⟨none, some "x"⟩) (fun _ => true) true true).err.isSome =
      true ∧
    frameworkRequeues
      (Reconcile (some ⟨none, some "x"⟩) (fun _ => true) true true) = true :=
  (c7_theorem ⟨none, some "x"⟩ (fun _ => true) true true).1 rfl

/-- C10 (confirmed): `GetPublishableJWKS` returns the snapshot key of every
entry of the state map, with no overlap filtering — entries marked longer ago
than the overlap window included — and such keys leave its result only once
`CleanupExpired` (as run by `ProcessJWKS`/`CleanupExpiredKeys`) has deleted
them from the state. -/
theorem c10_theorem (m : Merger) (s : State) (now : Int) :
    (m.GetPublishableJWKS s).keys = s.keys.map (fun e => e.2.key) ∧
    (∀ e ∈ s.keys, e.2.key ∈ (m.GetPublishableJWKS s).keys) ∧
    (m.GetPublishableJWKS (m.CleanupExpired s now).1).keys =
      (s.keys.filter (fun e => !expiredAt m now e)).map (fun e => e.2.key) := by
  refine ⟨rfl, fun e he => List.mem_map_of_mem _ he, ?_⟩
  show ((m.CleanupExpired s now).1.keys).map (fun e => e.2.key) = _
  rw [CleanupExpired_keys]

/-- C10 witness: the marked-at-0 entry of the example state is still returned
at any instant, and disappears only after cleanup. -/
theorem c10_witness :
    kRSA "k1" ∈ (exampleMerger.GetPublishableJWKS exampleMarkedState).keys :=
  (c10_theorem exampleMerger exampleMarkedState 20).2.1
    ("k1", ⟨"k1", kRSA "k1", 0, 0, some 0⟩) (by decide)

/-- C4 (confirmed, assuming every listed cluster also has a head-reported
last-modified time): when an aggregation tick writes a root JWKS, its key-ID
set equals the union of the key IDs of the per-cluster JWKS whose
last-modified is within `clusterTTL` of the current instant; stale clusters
contribute nothing; duplicates are removed by key ID with the first
occurrence winning, so the result's key IDs are pairwise distinct. -/
theorem c4_theorem (cj : List (String × Option JWKS))
    (lm : List (String × Int)) (ttl now : Int) (out : JWKS)
    (hcov : ∀ p ∈ cj, ∃ t, lm.find? (fun q => q.1 == p.1) = some (p.1, t))
    (hagg : aggregate cj lm ttl now = some out) :
    (∀ k, k ∈ kidsOf out ↔ ∃ p ∈ cj,
      (∃ t, lm.find? (fun q => q.1 == p.1) = some (p.1, t) ∧ now - t ≤ ttl) ∧
      k ∈ (jwksKeys p.2).map (·.kid)) ∧
    (∀ j ∈ out.keys,
      ((cj.filter (freshCluster lm ttl now)).flatMap
        (fun p => jwksKeys p.2)).find? (fun j' => j'.kid == j.kid) = some j) ∧
    (kidsOf out).Nodup := by
  have hout : out = mergeJWKS (cj.filter (freshCluster lm ttl now)) := by
    simp only [aggregate] at hagg
    split at hagg
    · exact Option.noConfusion hagg
    · exact (Option.some.inj hagg).symm
  have hfresh : ∀ p ∈ cj, (freshCluster lm ttl now p = true ↔
      ∃ t, lm.find? (fun q => q.1 == p.1) = some (p.1, t) ∧ now - t ≤ ttl) := by
    intro p hp
    obtain ⟨t₀, hft⟩ := hcov p hp
    have hval : freshCluster lm ttl now p = decide (now - t₀ ≤ ttl) := by
      unfold freshCluster
      rw [hft]
    rw [hval]
    constructor
    · intro hd
      exact ⟨t₀, hft, of_decide_eq_true hd⟩
    · rintro ⟨t, hfind, hle⟩
      have ht : t₀ = t := by
        rw [hft] at hfind
        exact congrArg (fun o => (o.getD (p.1, 0)).2) hfind
      exact decide_eq_true (ht ▸ hle)
  refine ⟨?_, ?_, ?_⟩
  · intro k
    rw [hout]
    show k ∈ (dedupByKid []
      ((cj.filter (freshCluster lm ttl now)).flatMap
        (fun p => jwksKeys p.2))).map (·.kid) ↔ _
    rw [mem_map_kid_dedupByKid]
    constructor
    · rintro ⟨-, hk⟩
      obtain ⟨key, hkey, hkid⟩ := List.mem_map.mp hk
      obtain ⟨p, hp, hpk⟩ := List.mem_flatMap.mp hkey
      have hpf := List.mem_filter.mp hp
      exact ⟨p, hpf.1, (hfresh p hpf.1).mp hpf.2,
        List.mem_map.mpr ⟨key, hpk, hkid⟩⟩
    · rintro ⟨p, hp, hf, hk⟩
      refine ⟨List.not_mem_nil k, ?_⟩
      obtain ⟨key, hkey, hkid⟩ := List.mem_map.mp hk
      exact List.mem_map.mpr ⟨key, List.mem_flatMap.mpr
        ⟨p, List.mem_filter.mpr ⟨hp, (hfresh p hp).mpr hf⟩, hkey⟩, hkid⟩
  · intro j hj
    rw [hout] at hj
    exact (dedupByKid_first [] _ j hj).1
  · rw [hout]
    exact dedupByKid_nodup [] _

/-- C4 witness: two clusters, one stale; the aggregated output carries
exactly the fresh cluster's key IDs, deduplicated. -/
theorem c4_witness :
    (kidsOf ⟨[kRSA "kb", kRSA "ka"]⟩).Nodup :=
  (c4_theorem [("a", some ⟨[kRSA "ka"]⟩), ("b", some ⟨[kRSA "kb", kRSA "ka"]⟩)]
    [("a", 0), ("b", 90)] 48 100 ⟨[kRSA "kb", kRSA "ka"]⟩
    (fun p hp => by
      rcases List.mem_cons.mp hp with rfl | hp2
      · exact ⟨0, rfl⟩
      · rcases List.mem_cons.mp hp2 with rfl | hp3
        · exact ⟨90, rfl⟩
        · exact absurd hp3 (List.not_mem_nil p))
    (by decide)).2.2

/-- C8 counterexample: the accepted public issuer URL
`https://example.com/` (http/https scheme, non-empty host, trailing slash)
is rewritten with jwks URI `https://example.com/openid/v1/jwks`, which is not
the issuer URL followed by `/openid/v1/jwks` character-for-character. -/
theorem c8_counterexample :
    (TransformDiscoveryDocument exampleDoc "https://example.com/").toOption.map
        (fun d => d.jwksURI) = some "https://example.com/openid/v1/jwks" ∧
    "https://example.com/openid/v1/jwks" ≠
      "https://example.com/" ++ "/openid/v1/jwks" := by
  constructor
  · rfl
  · decide

/-- C8 (corrected): for every discovery document and every public issuer URL
of the form `scheme://host[path]` with scheme `http` or `https`, a non-empty
slash-free host and a path that does not end in `/` (no query, fragment,
userinfo or percent-escapes), the rewrite succeeds, the rewritten issuer
equals the configured URL character-for-character, and the jwks URI equals
the issuer URL followed by `/openid/v1/jwks`; when the URL ends in `/`, the
slash is first stripped (see the counterexample). -/
theorem c8_theorem (doc : DiscoveryDocument) (sch host path : List Char)
    (hsch : String.mk sch = "http" ∨ String.mk sch = "https")
    (hhost : host ≠ []) (hnosl : ∀ ch ∈ host, ch ≠ '/')
    (hpath : path = [] ∨ ∃ rest, path = '/' :: rest)
    (hslash : path.getLast? ≠ some '/') :
    ∃ d, TransformDiscoveryDocument doc
        (String.mk (sch ++ ':' :: '/' :: '/' :: (host ++ path))) =
          Except.ok d ∧
      d.issuer = String.mk (sch ++ ':' :: '/' :: '/' :: (host ++ path)) ∧
      d.jwksURI =
        String.mk (sch ++ ':' :: '/' :: '/' :: (host ++ path)) ++
          "/openid/v1/jwks" := by
  have hdata : sch = ("http" : String).data ∨
      sch = ("https" : String).data := by
    rcases hsch with h | h
    · exact Or.inl (congrArg String.data h)
    · exact Or.inr (congrArg String.data h)
  have hnc : ':' ∉ sch := by
    rcases hdata with rfl | rfl
    · decide
    · decide
  have hhost' : String.mk host ≠ "" := fun h => hhost (congrArg String.data h)
  have hparse := parseURL_parts sch host path hnc hnosl hpath
  have htrim : trimTrailingSlash (String.mk path) = String.mk path := by
    unfold trimTrailingSlash
    rw [if_neg hslash]
  have hjwks : buildPublicJWKSURI
      (String.mk (sch ++ ':' :: '/' :: '/' :: (host ++ path))) =
      String.mk (sch ++ ':' :: '/' :: '/' :: (host ++ path)) ++
        "/openid/v1/jwks" := by
    unfold buildPublicJWKSURI
    rw [hparse]
    show urlString ⟨String.mk sch, String.mk host,
      trimTrailingSlash (String.mk path) ++ "/openid/v1/jwks"⟩ = _
    rw [htrim]
    unfold urlString
    rw [if_neg (by
      rcases hsch with h | h
      · rw [h]
        show ¬(("http" : String) == "") = true
        decide
      · rw [h]
        show ¬(("https" : String) == "") = true
        decide)]
    refine String.ext ?_
    simp only [String.data_append]
    simp only [List.append_assoc, List.cons_append, List.nil_append]
  refine ⟨⟨String.mk (sch ++ ':' :: '/' :: '/' :: (host ++ path)),
    buildPublicJWKSURI (String.mk (sch ++ ':' :: '/' :: '/' :: (host ++ path))),
    doc.authorizationEndpoint, "", "", doc.responseTypesSupported, [],
    doc.subjectTypesSupported, doc.idTokenSigningAlgValues,
    doc.claimsSupported, []⟩, ?_, rfl, hjwks⟩
  simp only [TransformDiscoveryDocument]
  rw [hparse]
  rw [if_neg (by
    rcases hsch with h | h
    · exact fun hcon => hcon.2 h
    · exact fun hcon => hcon.1 h)]
  rw [if_neg hhost']

/-- C8 witness: the rewrite at `https://example.com` yields issuer
`https://example.com` and jwks URI `https://example.com/openid/v1/jwks`. -/
theorem c8_witness :
    ∃ d, TransformDiscoveryDocument exampleDoc
        (String.mk ("https".data ++ ':' :: '/' :: '/' ::
          ("example.com".data ++ []))) = Except.ok d ∧
      d.issuer = String.mk ("https".data ++ ':' :: '/' :: '/' ::
        ("example.com".data ++ [])) ∧
      d.jwksURI = String.mk ("https".data ++ ':' :: '/' :: '/' ::
        ("example.com".data ++ [])) ++ "/openid/v1/jwks" :=
  c8_theorem exampleDoc "https".data "example.com".data []
    (Or.inr rfl) (by decide) (by decide) (Or.inl rfl) (by decide)

/-- C1 counterexample: state `{k1: Marked at 0}`, source JWKS containing
`k1` again, processed at instant 3 (within the overlap window): after
`ProcessJWKS` the entry's marked-for-removal stamp is still `some 0` — it is
not cleared, so the key has not returned to Live. -/
theorem c1_counterexample :
    kMarks "k1" (processJWKS exampleMerger (some exampleJWKS)
        exampleMarkedState 3).state.keys = [some 0] ∧
    ([some (0 : Int)] : List (Option Int)) ≠ [none] := by
  constructor
  · rfl
  · decide

/-- C1 (corrected): when a key in the Marked state appears again in the
source JWKS, `Merger.UpdateState` sets its last-seen to the current instant
and emits no event for it, but does not clear the marked-for-removal
timestamp: the entry keeps its stamp instead of returning to Live. -/
theorem c1_theorem (m : Merger) (c : JWKS) (s : State) (now T : Int)
    (k : String) (ks : KeyState)
    (hk : filterK k s.keys = [(k, ks)])
    (hmark : ks.markedForRemoval = some T)
    (hc : ∃ key ∈ c.keys, key.kid = k) :
    filterK k (m.UpdateState (some c) s now).1.keys =
      [(k, { ks with lastSeen := now })] ∧
    ({ ks with lastSeen := now } : KeyState).markedForRemoval = some T ∧
    (m.UpdateState (some c) s now).2.countP (fun ev => ev.keyID == k) = 0 := by
  have hne : filterK k s.keys ≠ [] := by
    rw [hk]
    exact List.cons_ne_nil _ _
  have hmem := UpdateState_filterK_mem m c s now k hc hne
  refine ⟨?_, hmark, hmem.2⟩
  rw [hmem.1, hk]
  rfl

/-- C1 witness: the example marked state with the key present again. -/
theorem c1_witness :
    filterK "k1" (exampleMerger.UpdateState (some exampleJWKS)
        exampleMarkedState 3).1.keys =
      [("k1", ⟨"k1", kRSA "k1", 0, 3, some 0⟩)] :=
  (c1_theorem exampleMerger exampleJWKS exampleMarkedState 3 0 "k1"
    ⟨"k1", kRSA "k1", 0, 0, some 0⟩ (by decide) rfl
    ⟨kRSA "k1", by decide, rfl⟩).1

/-- C2 counterexample: overlap 10, state `{k1: Marked at 0}`, source JWKS
containing `k1`, processed at instant 20. The published JWKS contains `k1`
even though `k1` is a Marked key whose age (20) is ≥ the overlap window (10) —
and after the run the state holds no entry for `k1` at all (neither Live nor
Marked), while the input state's Live set and within-overlap Marked set are
both empty. -/
theorem c2_counterexample :
    kidsOf (processJWKS exampleMerger (some exampleJWKS) exampleMarkedState
        20).published = ["k1"] ∧
    (processJWKS exampleMerger (some exampleJWKS) exampleMarkedState
        20).state.keys = [] ∧
    exampleMarkedState.keys.filter
        (fun e => e.2.markedForRemoval.isNone ||
          decide (20 - e.2.markedForRemoval.getD 20 <
            exampleMerger.overlapPeriod)) = [] := by
  refine ⟨rfl, rfl, rfl⟩

/-- C2 (corrected): the publishable JWKS of one `ProcessJWKS` run contains
exactly the source keys plus those state entries absent from the source whose
effective marking instant (the stamp, or the current instant for unmarked
entries) is within the overlap window; in particular a Marked key absent from
the source with age ≥ overlap is excluded — but a Marked key that is present
in the source is always published, regardless of its age. -/
theorem c2_theorem (m : Merger) (c : JWKS) (s : State) (now : Int)
    (k : String) (hwf : ∀ e ∈ s.keys, e.2.key.kid = e.1) :
    k ∈ kidsOf (processJWKS m (some c) s now).published ↔
      k ∈ kidsOf c ∨ (k ∉ kidsOf c ∧ ∃ e ∈ s.keys, e.1 = k ∧
        now - (e.2.markedForRemoval.getD now) < m.overlapPeriod) :=
  processJWKS_published_mem m c s now k hwf

/-- C2 witness: at the example input the characterisation evaluates on both
sides. -/
theorem c2_witness :
    "k1" ∈ kidsOf (processJWKS exampleMerger (some exampleJWKS)
        exampleMarkedState 20).published ↔
      "k1" ∈ kidsOf exampleJWKS ∨
        ("k1" ∉ kidsOf exampleJWKS ∧ ∃ e ∈ exampleMarkedState.keys,
          e.1 = "k1" ∧ 20 - (e.2.markedForRemoval.getD 20) <
            exampleMerger.overlapPeriod) :=
  c2_theorem exampleMerger exampleJWKS exampleMarkedState 20 "k1" (by decide)

/-- C3 (confirmed): over any finite sequence of `ProcessJWKS` invocations in
which a key marked for removal at `T` never reappears in a source JWKS, every
invocation at an instant past `T + overlap` publishes a JWKS without that
key, and — as soon as some invocation happens at or past `T + overlap` —
exactly one `KeyExpired` event is emitted for it over the whole sequence. -/
theorem c3_theorem (m : Merger) (k : String) (T : Int) (s : State)
    (invs : List (JWKS × Int))
    (hwf : ∀ e ∈ s.keys, e.2.key.kid = e.1)
    (hm : kMarks k s.keys = [some T])
    (habs : ∀ p ∈ invs, ∀ key ∈ p.1.keys, key.kid ≠ k) :
    (∀ st ∈ (runProcess m s invs).2, T + m.overlapPeriod ≤ st.now →
      k ∉ kidsOf st.published) ∧
    ((runProcess m s invs).2.any
        (fun st => decide (T + m.overlapPeriod ≤ st.now)) = true →
      countExpiredFor k ((runProcess m s invs).2.flatMap (·.events)) = 1) := by
  have hrun := runProcess_marked m k T s invs hwf hm habs
  exact ⟨hrun.1, fun hany => by rw [hrun.2, if_pos hany]⟩

/-- C3 witness: the marked-at-0 key with empty fetches at instants 5, 20 and
30 (overlap 10) is expired exactly once. -/
theorem c3_witness :
    countExpiredFor "k1" (((runProcess exampleMerger exampleMarkedState
        [(⟨[]⟩, 5), (⟨[]⟩, 20), (⟨[]⟩, 30)]).2).flatMap
        (fun st => st.events)) = 1 :=
  (c3_theorem exampleMerger "k1" 0 exampleMarkedState
    [(⟨[]⟩, 5), (⟨[]⟩, 20), (⟨[]⟩, 30)] (by decide) (by decide)
    (by decide)).2 (by decide)

/-- C9 counterexample: overlap 10, state `{k1: Marked at 0}`, source JWKS
containing `k1`, both runs at instant 20. The first run expires `k1` (its
state is empty); the second run re-adds it as a fresh key — the key-ID set of
the rotation state differs between the two runs, beyond the version
counter. -/
theorem c9_counterexample :
    (processJWKS exampleMerger (some exampleJWKS) exampleMarkedState
        20).state.keys.map (fun e => e.1) = [] ∧
    (processJWKS exampleMerger (some exampleJWKS)
        (processJWKS exampleMerger (some exampleJWKS) exampleMarkedState
          20).state 20).state.keys.map (fun e => e.1) = ["k1"] ∧
    (["k1"] : List String) ≠ [] := by
  refine ⟨rfl, rfl, by decide⟩

/-- C9 (corrected): processing the same source JWKS twice at the same instant
leaves the rotation state unchanged except for the version counter — the key
entries (IDs, snapshots, first-seen, last-seen and marked-for-removal
stamps), the last-updated stamp, the second run's events (none) and the
published JWKS are all identical — provided no source key's marked-for-removal
stamp has already aged past the overlap window (otherwise the first run
deletes such a key and the second re-adds it, see the counterexample). -/
theorem c9_theorem (m : Merger) (c : JWKS) (s : State) (now : Int)
    (hsafe : ∀ e ∈ s.keys, (∃ key ∈ c.keys, key.kid = e.1) →
      ∀ t, e.2.markedForRemoval = some t → now - t < m.overlapPeriod) :
    (processJWKS m (some c) (processJWKS m (some c) s now).state now).state =
      { (processJWKS m (some c) s now).state with
          version := (processJWKS m (some c) s now).state.version + 1 } ∧
    (processJWKS m (some c) (processJWKS m (some c) s now).state now).events
      = [] ∧
    (processJWKS m (some c) (processJWKS m (some c) s now).state now).published
      = (processJWKS m (some c) s now).published :=
  processJWKS_twice m c s now hsafe

/-- C9 witness: a live (unmarked) key processed twice at the same instant. -/
theorem c9_witness :
    (processJWKS exampleMerger (some exampleJWKS)
      (processJWKS exampleMerger (some exampleJWKS) exampleFreshState 5).state
        5).events = [] :=
  (c9_theorem exampleMerger exampleJWKS exampleFreshState 5
    (fun e he _ t hmark => by
      rw [List.mem_singleton.mp he] at hmark
      exact Option.noConfusion hmark)).2.1
